import Mathlib

/-!
# simple_cli: a shallow embedding of `src/simple_cli.h`

The C++ class `scli::CLI` keeps its parameters as heap objects (`new param_t()`)
that are shared, through raw pointers, by the positional vector and by the two
`std::map` indices.  The embedding makes the sharing explicit:

* `std::string` is a list of characters (`Str`);
* the objects created by `new param_t()` live in `CLI.heap`; a pointer is the
  index of the object in that list, so two index entries holding the same
  pointer alias the same record, as in the source;
* `std::map<string, param_t*>` is an association list with `mapGet`
  (`count` + `operator[]` on a present key) and `mapSet` (`m[k] = v`);
* operations that dereference a pointer or index an array return `Option`:
  `none` stands for behaviour the C++ program does not define (a dangling
  pointer, an index outside `argv` or `positionals`) and, for the parse loop,
  for running out of loop fuel;
* `int i`, `argc` and `size()` are natural numbers: `i` starts at 1 and only
  grows, `argc` is the length of the token list, and the token strings are
  shorter than 2^31 characters, so no conversion between `int` and `size_t`
  in the source changes a value.
-/

namespace scli

/-- A `std::string`, as its sequence of characters. -/
abbrev Str := List Char

/-- The enumeration `param_type_e` of the source. -/
inductive param_type_e where
  | POSITIONAL
  | FLAG
  | LONG_FLAG
  | OPTION
  | LONG_OPTION
deriving DecidableEq, Repr

open param_type_e

/-- The record `param_t` of the source. -/
structure param_t where
  type : param_type_e
  name : Str
  pattern : Str
  description : Str
  found : Bool
  value : Str
deriving DecidableEq, Repr

/-- A `param_t*`: the index of the object in `CLI.heap`. -/
abbrev Ptr := Nat

/-- A `std::map<string, param_t*>`. -/
abbrev PMap := List (Str × Ptr)

/-- The pointer stored under key `k`, when `count(k) != 0`. -/
def mapGet (k : Str) : PMap → Option Ptr
  | [] => none
  | (k', p) :: m => if k' = k then some p else mapGet k m

/-- The assignment `m[k] = p`: overwrite the entry of `k`, or insert one. -/
def mapSet (k : Str) (p : Ptr) : PMap → PMap
  | [] => [(k, p)]
  | (k', p') :: m => if k' = k then (k, p) :: m else (k', p') :: mapSet k p m

/-- The private state of class `CLI`, with the heap of its `param_t` objects. -/
structure CLI where
  program_name : Str
  program_command : Str
  program_desc : Str
  heap : List param_t
  positionals : List Ptr
  params_by_name : PMap
  params_by_pattern : PMap
  was_parsed : Bool
  error_occured : Bool
deriving DecidableEq, Repr

namespace CLI

/-- The loop of `StripPattern`: erase the first character while it is a dash. -/
def StripPattern : Str → Str
  | [] => []
  | ch :: rest => if ch = '-' then StripPattern rest else ch :: rest

/-- The call `str.find("=")`: position of the first `=`, `none` for `npos`. -/
def findEq : Str → Option Nat
  | [] => none
  | ch :: rest => if ch = '=' then some 0 else (findEq rest).map (· + 1)

/-- The procedure `SplitAtEqual(str, pattern, value)`; the result is the pair of
the two reference arguments after the call (`pattern` is left alone when
there is no `=`, `value` is always reset). -/
def SplitAtEqual (str pattern : Str) : Str × Str :=
  match findEq str with
  | none => (pattern, [])
  | some index => (str.take index, str.drop (index + 1))

/-- The default constructor `CLI()`. -/
def fresh : CLI :=
  { program_name := [], program_command := [], program_desc := [],
    heap := [], positionals := [], params_by_name := [], params_by_pattern := [],
    was_parsed := false, error_occured := false }

/-- The constructor `CLI(program_name, program_command, program_desc)`. -/
def mk3 (program_name program_command program_desc : Str) : CLI :=
  { fresh with program_name := program_name, program_command := program_command,
               program_desc := program_desc }

/-- The record built by `MakeParam`. -/
def MakeParam (type : param_type_e) (name pattern description : Str) : param_t :=
  { type := type, name := name, pattern := StripPattern pattern,
    description := description, found := false, value := [] }

/-- The allocation `new param_t()` followed by the field assignments of
`MakeParam`: the object is placed at a new address. -/
def alloc (c : CLI) (param : param_t) : Ptr × CLI :=
  (c.heap.length, { c with heap := c.heap ++ [param] })

/-- The read `*p`. -/
def load (c : CLI) (p : Ptr) : Option param_t := c.heap[p]?

/-- The write `p->found = true`. -/
def setFound (c : CLI) (p : Ptr) : Option CLI :=
  match c.heap[p]? with
  | none => none
  | some prm => some { c with heap := c.heap.set p { prm with found := true } }

/-- The write `p->value = v`. -/
def setValue (c : CLI) (p : Ptr) (v : Str) : Option CLI :=
  match c.heap[p]? with
  | none => none
  | some prm => some { c with heap := c.heap.set p { prm with value := v } }

/-- The body of the loop of `parse` at index `i`; the result is the
index after the body (before the `i++` of the loop header) and the state. -/
def parseBody (argv : List Str) (i : Nat) (c : CLI) : Option (Nat × CLI) :=
  if i - 1 < c.positionals.length then do
    let p ← c.positionals[i - 1]?
    let c ← c.setFound p
    let tok ← argv[i]?
    let c ← c.setValue p tok
    pure (i, c)
  else do
    let tok ← argv[i]?
    let (pattern, value) := SplitAtEqual tok tok
    let pattern := StripPattern pattern
    match mapGet pattern c.params_by_pattern with
    | some param => do
      let c ← c.setFound param
      let prm ← c.load param
      if prm.type = OPTION ∨ prm.type = LONG_OPTION then
        if value.length > 0 then do
          let c ← c.setValue param value
          pure (i, c)
        else if i < argv.length - 1 then do
          let tok ← argv[i + 1]?
          let c ← c.setValue param tok
          pure (i + 1, c)
        else
          pure (i, { c with error_occured := true })
      else
        if value.length > 0 then pure (i, { c with error_occured := true })
        else pure (i, c)
    | none => pure (i, { c with error_occured := true })

/-- The loop `for (int i = 1; i < argc; i++)` of `parse`, from index `i`, with
at most `fuel` iterations; `none` when the fuel runs out before `i < argc`
fails. -/
def parseLoop (argv : List Str) : Nat → Nat → CLI → Option CLI
  | 0, i, c => if i < argv.length then none else some c
  | fuel + 1, i, c =>
    if i < argv.length then
      match parseBody argv i c with
      | none => none
      | some (i', c') => parseLoop argv fuel (i' + 1) c'
    else some c

/-- The method `parse(argc, argv)` with `argc = argv.length`. Every iteration
advances `i`, so `argc` iterations are enough fuel. -/
def parse (c : CLI) (argv : List Str) : Option CLI :=
  parseLoop argv argv.length 1 { c with was_parsed := true }

/-- The state at the head of the loop of `parse` after `k` iterations started
at index `i` (or at the exit of the loop, when it is left earlier): the index
and the registry. -/
def loopHead (argv : List Str) : Nat → Nat → CLI → Option (Nat × CLI)
  | 0, i, c => some (i, c)
  | k + 1, i, c =>
    if i < argv.length then
      match parseBody argv i c with
      | none => none
      | some (i', c') => loopHead argv k (i' + 1) c'
    else some (i, c)

/-- The method `is(name)`: the returned value and the state after the call. -/
def is (c : CLI) (name : Str) : Option (Bool × CLI) :=
  match mapGet name c.params_by_name with
  | none => some (false, { c with error_occured := true })
  | some p => do
    let prm ← c.load p
    pure (prm.found, c)

/-- The method `operator[](name)`, the string read the specification calls
`value(name)`. -/
def value (c : CLI) (name : Str) : Option (Str × CLI) :=
  match mapGet name c.params_by_name with
  | none => some ([], { c with error_occured := true })
  | some p => do
    let param ← c.load p
    if param.type ≠ OPTION ∧ param.type ≠ LONG_OPTION ∧ param.type ≠ POSITIONAL then
      pure ([], { c with error_occured := true })
    else if param.found then pure (param.value, c)
    else pure ([], { c with error_occured := true })

/-- The C library predicate `isspace` in the "C" locale: space, and the
control characters `\t \n \v \f \r` (codes 9 to 13). -/
def isspace (ch : Char) : Bool := ch.toNat = 32 ∨ (9 ≤ ch.toNat ∧ ch.toNat ≤ 13)

/-- The C library predicate `isdigit`. -/
def isdigit (ch : Char) : Bool := 48 ≤ ch.toNat ∧ ch.toNat ≤ 57

/-- The value of the longest run of decimal digits at the front of a string,
continuing the accumulator `acc`. -/
def digitsVal : Nat → Str → Nat
  | acc, [] => acc
  | acc, ch :: rest =>
    if isdigit ch then digitsVal (acc * 10 + (ch.toNat - 48)) rest else acc

/-- The C library function `strtol(s, NULL, 10)` on an LP64 platform: leading
white space is skipped, then an optional sign and the longest run of digits
are read; a value outside `long` is clamped. -/
def strtol (s : Str) : Int :=
  let v : Int :=
    match s.dropWhile isspace with
    | [] => 0
    | ch :: rest =>
      if ch = '-' then -(digitsVal 0 rest : Int)
      else if ch = '+' then (digitsVal 0 rest : Int)
      else (digitsVal 0 (ch :: rest) : Int)
  max (-(2 ^ 63)) (min v (2 ^ 63 - 1))

/-- The conversion of a `long` to `int`: reduction modulo 2^32 into the range
of a 32-bit two's complement integer. -/
def toInt32 (v : Int) : Int := (v + 2 ^ 31) % 2 ^ 32 - 2 ^ 31

/-- The C library function `atoi`, which `asInt` calls on the stored value.
ISO C defines it as `(int) strtol(s, NULL, 10)` and leaves the result open
when the value does not fit in `int`; the model follows glibc there. -/
def atoi (s : Str) : Int := toInt32 (strtol s)

/-- The method `asInt(name)`. -/
def asInt (c : CLI) (name : Str) : Option (Int × CLI) :=
  match mapGet name c.params_by_name with
  | none => some (-1, { c with error_occured := true })
  | some p => do
    let param ← c.load p
    if param.type ≠ OPTION ∧ param.type ≠ LONG_OPTION ∧ param.type ≠ POSITIONAL then
      pure (-1, { c with error_occured := true })
    else if param.found then pure (atoi param.value, c)
    else pure (-1, { c with error_occured := true })

/-- The method `error()`. -/
def error (c : CLI) : Bool × CLI := (c.error_occured, c)

/-- The method `addPositional(name, description)`. -/
def addPositional (c : CLI) (name description : Str) : CLI :=
  let (param, c) := c.alloc (MakeParam POSITIONAL name [] description)
  let c := { c with positionals := c.positionals ++ [param] }
  { c with params_by_name := mapSet name param c.params_by_name }

/-- The common body of the four declarations that take a pattern. -/
def addPatterned (type : param_type_e) (c : CLI) (name pattern description : Str) : CLI :=
  let prm := MakeParam type name pattern description
  let (param, c) := c.alloc prm
  let c := { c with params_by_name := mapSet name param c.params_by_name }
  { c with params_by_pattern := mapSet prm.pattern param c.params_by_pattern }

/-- The method `addFlag(name, pattern, description)`. -/
def addFlag (c : CLI) (name pattern description : Str) : CLI :=
  addPatterned FLAG c name pattern description

/-- The method `addLongFlag(name, pattern, description)`. -/
def addLongFlag (c : CLI) (name pattern description : Str) : CLI :=
  addPatterned LONG_FLAG c name pattern description

/-- The method `addOption(name, pattern, description)`. -/
def addOption (c : CLI) (name pattern description : Str) : CLI :=
  addPatterned OPTION c name pattern description

/-- The method `addLongOption(name, pattern, description)`. -/
def addLongOption (c : CLI) (name pattern description : Str) : CLI :=
  addPatterned LONG_OPTION c name pattern description

/-- Does the object at address `p` exist and satisfy `P`? -/
def holdsAt (c : CLI) (p : Ptr) (P : param_t → Bool) : Bool :=
  match c.heap[p]? with
  | some prm => P prm
  | none => false

/-- The shape of a registry built by the declaration calls: the positional
vector holds distinct, live `POSITIONAL` objects with an empty pattern; every
entry of the pattern index is a live object that is not positional, filed
under its own pattern, which does not begin with a dash; every entry of the
name index is a live object filed under its own name. -/
def WF (c : CLI) : Prop :=
  (∀ p ∈ c.positionals,
    c.holdsAt p (fun prm => prm.type = POSITIONAL ∧ prm.pattern = []) = true) ∧
  c.positionals.Nodup ∧
  (∀ e ∈ c.params_by_pattern,
    c.holdsAt e.2 (fun prm => prm.pattern = e.1 ∧ prm.type ≠ POSITIONAL) = true ∧
    e.1.head? ≠ some '-') ∧
  (∀ e ∈ c.params_by_name, c.holdsAt e.2 (fun prm => prm.name = e.1) = true)

instance (c : CLI) : Decidable (WF c) := by unfold WF; infer_instance

/-- Every pointer that `parse` can dereference addresses an object: those of
the positional vector and those of the pattern index. -/
def Live (c : CLI) : Prop :=
  (∀ p ∈ c.positionals, p < c.heap.length) ∧ (∀ e ∈ c.params_by_pattern, e.2 < c.heap.length)

instance (c : CLI) : Decidable (Live c) := by unfold Live; infer_instance

/-- The part of a registry no step of `parse` changes, and the direction in
which it changes the rest: the metadata, the positional vector, both indices,
`was_parsed` and the addresses of the heap stay; the error flag is never
cleared; an object keeps its kind, name, pattern and description, and its
`found` is never cleared. -/
structure Frame (c c' : CLI) : Prop where
  program_name : c'.program_name = c.program_name
  program_command : c'.program_command = c.program_command
  program_desc : c'.program_desc = c.program_desc
  positionals : c'.positionals = c.positionals
  params_by_name : c'.params_by_name = c.params_by_name
  params_by_pattern : c'.params_by_pattern = c.params_by_pattern
  was_parsed : c'.was_parsed = c.was_parsed
  heap_length : c'.heap.length = c.heap.length
  error_mono : c.error_occured = true → c'.error_occured = true
  obj : ∀ (q : Ptr) (prm : param_t), c.heap[q]? = some prm →
    ∃ prm' : param_t, c'.heap[q]? = some prm' ∧
    prm'.type = prm.type ∧ prm'.name = prm.name ∧ prm'.pattern = prm.pattern ∧
    prm'.description = prm.description ∧ (prm.found = true → prm'.found = true)

/-- What the steps of `parse` in flag position leave alone: an object changes
only if the pattern index points to it, and its `value` changes only if it is
an `OPTION` or a `LONG_OPTION`. -/
def FlagFrame (c c' : CLI) : Prop :=
  ∀ (q : Ptr) (prm : param_t), c.heap[q]? = some prm →
    ∃ prm' : param_t, c'.heap[q]? = some prm' ∧
    (prm' = prm ∨ ∃ key, mapGet key c.params_by_pattern = some q) ∧
    (prm'.value = prm.value ∨ prm.type = OPTION ∨ prm.type = LONG_OPTION)

/-- The tokens after the invocation token that are not flag or option
references, i.e. do not begin with a dash, in the order of the token list. -/
def nonFlagTokens (argv : List Str) : List Str :=
  argv.tail.filter fun tok => tok.head? ≠ some '-'

/-- The failure condition of the value-reading accessors in the words of the
specification: the parameter is a flag (short or long) or was not found. -/
def valueReadFails (prm : param_t) : Bool :=
  prm.type = FLAG ∨ prm.type = LONG_FLAG ∨ prm.found = false

/-- The number a string of decimal digits denotes. -/
def decimalValue (ds : Str) : Nat :=
  ds.foldl (fun acc ch => acc * 10 + (ch.toNat - 48)) 0

/-- The integer read of the specification: the base-10 integer denoted by the
longest numeric start of `s`, an optional sign followed by digits, and 0 when
`s` does not start so. -/
def numericValue (s : Str) : Int :=
  match s with
  | [] => 0
  | ch :: rest =>
    if ch = '-' then -(decimalValue (rest.takeWhile isdigit) : Int)
    else if ch = '+' then (decimalValue (rest.takeWhile isdigit) : Int)
    else (decimalValue ((ch :: rest).takeWhile isdigit) : Int)

/-- An example state: the registry with the single positional `n`, as `parse`
leaves it when the token after the invocation token is `v`. -/
def positionalRead (v : Str) : CLI :=
  { fresh.addPositional "n".toList [] with
    was_parsed := true
    heap := [{ MakeParam POSITIONAL "n".toList [] [] with found := true, value := v }] }

/-- The `while` loop of `StripPattern`, statement by statement, with at most
`fuel` evaluations of its condition: `pattern.at(0)` throws on an empty
string (`none`), `erase(0, 1)` drops the first character, and the loop is
left by `break` when nothing remains. `none` also when the fuel runs out. -/
def stripLoop : Nat → Str → Option Str
  | 0, _ => none
  | fuel + 1, pattern =>
    match pattern with
    | [] => none
    | ch :: rest =>
      if ch = '-' then
        if rest.length = 0 then some rest else stripLoop fuel rest
      else some (ch :: rest)

/-- The body of `StripPattern` with its checks kept: the early return on an
empty string, then the loop, which needs at most one evaluation of its
condition per character. -/
def StripPatternChecked (pattern : Str) : Option Str :=
  if pattern.length = 0 then some pattern else stripLoop pattern.length pattern

/-- The registries a program can hold: those of the two constructors, and
those left by a declaration call, by `parse` or by an accessor on a registry
it can hold. -/
inductive Reachable : CLI → Prop where
  | fresh : Reachable fresh
  | mk3 (a b d : Str) : Reachable (mk3 a b d)
  | addPositional (c : CLI) (name description : Str) :
      Reachable c → Reachable (c.addPositional name description)
  | addFlag (c : CLI) (name pattern description : Str) :
      Reachable c → Reachable (c.addFlag name pattern description)
  | addLongFlag (c : CLI) (name pattern description : Str) :
      Reachable c → Reachable (c.addLongFlag name pattern description)
  | addOption (c : CLI) (name pattern description : Str) :
      Reachable c → Reachable (c.addOption name pattern description)
  | addLongOption (c : CLI) (name pattern description : Str) :
      Reachable c → Reachable (c.addLongOption name pattern description)
  | parse (c c' : CLI) (argv : List Str) :
      Reachable c → c.parse argv = some c' → Reachable c'
  | is (c c' : CLI) (name : Str) (r : Bool) :
      Reachable c → c.is name = some (r, c') → Reachable c'
  | value (c c' : CLI) (name : Str) (r : Str) :
      Reachable c → c.value name = some (r, c') → Reachable c'
  | asInt (c c' : CLI) (name : Str) (r : Int) :
      Reachable c → c.asInt name = some (r, c') → Reachable c'
  | error (c : CLI) : Reachable c → Reachable c.error.2

/-- An example state: the registry with the single flag `debug` (pattern `d`),
as `parse` of `["prog", "-d"]` leaves it. -/
def debugSeen : CLI :=
  { fresh.addFlag "debug".toList "d".toList [] with
    was_parsed := true
    heap := [{ MakeParam FLAG "debug".toList "d".toList [] with found := true }] }

/-- An example registry: the option `verbosity` (pattern `verbose`) and the
flag `debug` (pattern `d`), declared in this order. -/
def optionAndFlag : CLI :=
  (fresh.addLongOption "verbosity".toList "verbose".toList []).addFlag
    "debug".toList "d".toList []

/-- An example registry: the positional `file` and the flag `debug` (pattern
`d`), declared in this order. -/
def positionalAndFlag : CLI :=
  (fresh.addPositional "file".toList []).addFlag "debug".toList "d".toList []

end CLI

end scli

namespace scli

open CLI param_type_e

/-! ## Strings -/

theorem StripPattern_of_head (s : Str) (h : s.head? ≠ some '-') : StripPattern s = s := by
  cases s with
  | nil => rfl
  | cons ch rest =>
    have hc : ch ≠ '-' := by simpa using h
    simp [StripPattern, hc]

theorem StripPattern_dashes (d s : Str) (hd : ∀ ch ∈ d, ch = '-') :
    StripPattern (d ++ s) = StripPattern s := by
  induction d with
  | nil => rfl
  | cons ch rest ih =>
    have h1 : ch = '-' := hd ch (by simp)
    have h2 : ∀ x ∈ rest, x = '-' := fun x hx => hd x (by simp [hx])
    simp [StripPattern, h1, ih h2]

theorem findEq_none (s : Str) (h : '=' ∉ s) : findEq s = none := by
  induction s with
  | nil => rfl
  | cons ch rest ih =>
    have h1 : ch ≠ '=' := fun e => h (by simp [e])
    have h2 : '=' ∉ rest := fun e => h (by simp [e])
    simp [findEq, h1, ih h2]

theorem findEq_append (a b : Str) (h : '=' ∉ a) :
    findEq (a ++ '=' :: b) = some a.length := by
  induction a with
  | nil => simp [findEq]
  | cons ch rest ih =>
    have h1 : ch ≠ '=' := fun e => h (by simp [e])
    have h2 : '=' ∉ rest := fun e => h (by simp [e])
    simp [findEq, h1, ih h2]

theorem SplitAtEqual_none (s pat : Str) (h : '=' ∉ s) : SplitAtEqual s pat = (pat, []) := by
  simp [SplitAtEqual, findEq_none s h]

theorem SplitAtEqual_append (a b pat : Str) (h : '=' ∉ a) :
    SplitAtEqual (a ++ '=' :: b) pat = (a, b) := by
  simp [SplitAtEqual, findEq_append a b h]

/-! ## The loop body, branch by branch -/

theorem parseBody_positional (argv : List Str) (i : Nat) (c : CLI) (p : Ptr) (prm : param_t)
    (tok : Str) (hp : c.positionals[i - 1]? = some p) (hprm : c.heap[p]? = some prm)
    (htok : argv[i]? = some tok) :
    parseBody argv i c
      = some (i, { c with heap := c.heap.set p { prm with found := true, value := tok } }) := by
  have hlt : i - 1 < c.positionals.length := by
    rcases List.getElem?_eq_some.mp hp with ⟨h, _⟩
    exact h
  have hpl : p < c.heap.length := by
    rcases List.getElem?_eq_some.mp hprm with ⟨h, _⟩
    exact h
  simp [parseBody, hlt, hp, setFound, setValue, hprm, htok, hpl, List.getElem?_set]

theorem parseBody_unknown (argv : List Str) (i : Nat) (c : CLI) (tok : Str)
    (hpos : c.positionals.length ≤ i - 1) (htok : argv[i]? = some tok)
    (hget : mapGet (StripPattern (SplitAtEqual tok tok).1) c.params_by_pattern = none) :
    parseBody argv i c = some (i, { c with error_occured := true }) := by
  have hlt : ¬ (i - 1 < c.positionals.length) := by omega
  simp [parseBody, hlt, htok, hget]

theorem parseBody_matched (argv : List Str) (i : Nat) (c : CLI) (tok : Str) (p : Ptr)
    (prm : param_t) (hpos : c.positionals.length ≤ i - 1) (htok : argv[i]? = some tok)
    (hget : mapGet (StripPattern (SplitAtEqual tok tok).1) c.params_by_pattern = some p)
    (hprm : c.heap[p]? = some prm) :
    parseBody argv i c =
      if prm.type = OPTION ∨ prm.type = LONG_OPTION then
        if (SplitAtEqual tok tok).2.length > 0 then
          some (i, { c with
            heap := c.heap.set p { prm with found := true, value := (SplitAtEqual tok tok).2 } })
        else if i < argv.length - 1 then
          (argv[i + 1]?).map fun t =>
            (i + 1, { c with heap := c.heap.set p { prm with found := true, value := t } })
        else
          some (i, { c with heap := c.heap.set p { prm with found := true },
                            error_occured := true })
      else if (SplitAtEqual tok tok).2.length > 0 then
        some (i, { c with heap := c.heap.set p { prm with found := true },
                          error_occured := true })
      else some (i, { c with heap := c.heap.set p { prm with found := true } }) := by
  have hlt : ¬ (i - 1 < c.positionals.length) := by omega
  have hpl : p < c.heap.length := by
    rcases List.getElem?_eq_some.mp hprm with ⟨h, _⟩
    exact h
  simp only [parseBody, hlt, if_false, htok, Option.bind_eq_bind, Option.some_bind, hget,
    setFound, hprm, load, setValue, Option.pure_def]
  simp only [List.getElem?_set, hpl, if_true, Option.some_bind]
  by_cases hty : prm.type = OPTION ∨ prm.type = LONG_OPTION
  · simp only [hty, if_true]
    by_cases hv : (SplitAtEqual tok tok).2.length > 0
    · simp [hv]
    · simp only [hv, if_false]
      by_cases hn : i < argv.length - 1
      · have : i + 1 < argv.length := by omega
        simp [hn, this]
      · simp [hn]
  · simp only [hty, if_false]

/-- The three ways the loop body can complete: a positional is filled, the
token is unknown, or the token matches an entry of the pattern index. -/
theorem parseBody_inv (argv : List Str) (i : Nat) (c : CLI) (r : Nat × CLI)
    (h : parseBody argv i c = some r) :
    (∃ p prm tok, c.positionals[i - 1]? = some p ∧ c.heap[p]? = some prm ∧
        argv[i]? = some tok ∧
        r = (i, { c with heap := c.heap.set p { prm with found := true, value := tok } })) ∨
    (∃ tok, c.positionals.length ≤ i - 1 ∧ argv[i]? = some tok ∧
        mapGet (StripPattern (SplitAtEqual tok tok).1) c.params_by_pattern = none ∧
        r = (i, { c with error_occured := true })) ∨
    (∃ tok p prm, c.positionals.length ≤ i - 1 ∧ argv[i]? = some tok ∧
        mapGet (StripPattern (SplitAtEqual tok tok).1) c.params_by_pattern = some p ∧
        c.heap[p]? = some prm) := by
  by_cases hlt : i - 1 < c.positionals.length
  · cases hp : c.positionals[i - 1]? with
    | none => simp [parseBody, hlt, hp] at h
    | some p =>
      cases hprm : c.heap[p]? with
      | none => simp [parseBody, hlt, hp, setFound, hprm] at h
      | some prm =>
        cases htok : argv[i]? with
        | none => simp [parseBody, hlt, hp, setFound, hprm, htok] at h
        | some tok =>
          rw [parseBody_positional argv i c p prm tok hp hprm htok] at h
          exact Or.inl ⟨p, prm, tok, rfl, hprm, rfl, (Option.some.inj h).symm⟩
  · have hpos : c.positionals.length ≤ i - 1 := by omega
    cases htok : argv[i]? with
    | none => simp [parseBody, hlt, htok] at h
    | some tok =>
      cases hget : mapGet (StripPattern (SplitAtEqual tok tok).1) c.params_by_pattern with
      | none =>
        rw [parseBody_unknown argv i c tok hpos htok hget] at h
        exact Or.inr (Or.inl ⟨tok, hpos, rfl, hget, (Option.some.inj h).symm⟩)
      | some p =>
        cases hprm : c.heap[p]? with
        | none => simp [parseBody, hlt, htok, hget, setFound, hprm] at h
        | some prm => exact Or.inr (Or.inr ⟨tok, p, prm, hpos, rfl, hget, hprm⟩)

/-! ## What a step of `parse` preserves -/

theorem CLI.Frame.frame_refl (c : CLI) : Frame c c :=
  ⟨rfl, rfl, rfl, rfl, rfl, rfl, rfl, rfl, id, fun _ prm h => ⟨prm, h, rfl, rfl, rfl, rfl, id⟩⟩

theorem CLI.Frame.frame_trans {a b c : CLI} (h1 : Frame a b) (h2 : Frame b c) : Frame a c where
  program_name := h2.program_name.trans h1.program_name
  program_command := h2.program_command.trans h1.program_command
  program_desc := h2.program_desc.trans h1.program_desc
  positionals := h2.positionals.trans h1.positionals
  params_by_name := h2.params_by_name.trans h1.params_by_name
  params_by_pattern := h2.params_by_pattern.trans h1.params_by_pattern
  was_parsed := h2.was_parsed.trans h1.was_parsed
  heap_length := h2.heap_length.trans h1.heap_length
  error_mono := fun h => h2.error_mono (h1.error_mono h)
  obj := by
    intro q prm h
    obtain ⟨prm1, e1, t1, n1, p1, d1, f1⟩ := h1.obj q prm h
    obtain ⟨prm2, e2, t2, n2, p2, d2, f2⟩ := h2.obj q prm1 e1
    exact ⟨prm2, e2, t2.trans t1, n2.trans n1, p2.trans p1, d2.trans d1, fun hf => f2 (f1 hf)⟩

/-- Overwriting one object by a record of the same kind, name, pattern and
description whose `found` is not cleared, and possibly raising the error flag,
stays within `Frame`. -/
theorem CLI.Frame.of_set (c : CLI) (p : Ptr) (prm prm' : param_t) (e : Bool)
    (h : c.heap[p]? = some prm) (ht : prm'.type = prm.type) (hn : prm'.name = prm.name)
    (hp : prm'.pattern = prm.pattern) (hd : prm'.description = prm.description)
    (hf : prm.found = true → prm'.found = true)
    (he : c.error_occured = true → e = true) :
    Frame c { c with heap := c.heap.set p prm', error_occured := e } where
  program_name := rfl
  program_command := rfl
  program_desc := rfl
  positionals := rfl
  params_by_name := rfl
  params_by_pattern := rfl
  was_parsed := rfl
  heap_length := by simp
  error_mono := he
  obj := by
    intro q x hq
    have hpl : p < c.heap.length := (List.getElem?_eq_some.mp h).1
    by_cases hqp : p = q
    · subst hqp
      have hx : x = prm := Option.some.inj (hq.symm.trans h)
      subst hx
      exact ⟨prm', by simp [List.getElem?_set, hpl], ht, hn, hp, hd, hf⟩
    · exact ⟨x, by simp [List.getElem?_set, hqp, hq], rfl, rfl, rfl, rfl, id⟩

theorem CLI.Frame.of_error (c : CLI) : Frame c { c with error_occured := true } :=
  ⟨rfl, rfl, rfl, rfl, rfl, rfl, rfl, rfl, fun _ => rfl,
    fun _ prm h => ⟨prm, h, rfl, rfl, rfl, rfl, id⟩⟩

/-- A completed loop body stays within `Frame`, ends at index `i` or `i + 1`,
and that index is still a token of the list. -/
theorem parseBody_frame (argv : List Str) (i i' : Nat) (c c' : CLI)
    (h : parseBody argv i c = some (i', c')) :
    Frame c c' ∧ i ≤ i' ∧ i' ≤ i + 1 ∧ i' < argv.length := by
  have hb := h
  rcases parseBody_inv argv i c (i', c') h with
    ⟨p, prm, tok, _, hprm, htok, hr⟩ | ⟨tok, _, htok, _, hr⟩ | ⟨tok, p, prm, hpos, htok, hget, hprm⟩
  · have hi : i < argv.length := (List.getElem?_eq_some.mp htok).1
    obtain ⟨rfl, rfl⟩ := Prod.mk.inj hr
    exact ⟨Frame.of_set c p prm _ c.error_occured hprm rfl rfl rfl rfl (fun _ => rfl) id,
      le_refl _, by omega, hi⟩
  · have hi : i < argv.length := (List.getElem?_eq_some.mp htok).1
    obtain ⟨rfl, rfl⟩ := Prod.mk.inj hr
    exact ⟨Frame.of_error c, le_refl _, by omega, hi⟩
  · have hi : i < argv.length := (List.getElem?_eq_some.mp htok).1
    rw [parseBody_matched argv i c tok p prm hpos htok hget hprm] at hb
    split at hb
    · split at hb
      · obtain ⟨rfl, rfl⟩ := Prod.mk.inj (Option.some.inj hb)
        exact ⟨Frame.of_set c p prm _ c.error_occured hprm rfl rfl rfl rfl (fun _ => rfl) id,
          le_refl _, by omega, hi⟩
      · split at hb
        · rename_i hn
          have hlt : i + 1 < argv.length := by omega
          obtain ⟨t, ht, hb⟩ := Option.map_eq_some'.mp hb
          obtain ⟨rfl, rfl⟩ := Prod.mk.inj hb
          exact ⟨Frame.of_set c p prm _ c.error_occured hprm rfl rfl rfl rfl (fun _ => rfl) id,
            by omega, le_refl _, hlt⟩
        · obtain ⟨rfl, rfl⟩ := Prod.mk.inj (Option.some.inj hb)
          exact ⟨Frame.of_set c p prm _ true hprm rfl rfl rfl rfl (fun _ => rfl) (fun _ => rfl),
            le_refl _, by omega, hi⟩
    · split at hb
      · obtain ⟨rfl, rfl⟩ := Prod.mk.inj (Option.some.inj hb)
        exact ⟨Frame.of_set c p prm _ true hprm rfl rfl rfl rfl (fun _ => rfl) (fun _ => rfl),
          le_refl _, by omega, hi⟩
      · obtain ⟨rfl, rfl⟩ := Prod.mk.inj (Option.some.inj hb)
        exact ⟨Frame.of_set c p prm _ c.error_occured hprm rfl rfl rfl rfl (fun _ => rfl) id,
          le_refl _, by omega, hi⟩

theorem CLI.Live.live_of_frame {c c' : CLI} (h : Live c) (f : Frame c c') : Live c' := by
  unfold Live at *
  rw [f.positionals, f.params_by_pattern, f.heap_length]
  exact h

theorem holdsAt_of_frame {c c' : CLI} (f : Frame c c') (p : Ptr) (P : param_t → Bool)
    (hP : ∀ x y : param_t, x.type = y.type → x.name = y.name → x.pattern = y.pattern →
      P y = true → P x = true)
    (h : c.holdsAt p P = true) : c'.holdsAt p P = true := by
  unfold holdsAt at *
  cases hq : c.heap[p]? with
  | none => simp [hq] at h
  | some prm =>
    obtain ⟨prm', e, t, n, pt, _, _⟩ := f.obj p prm hq
    simp only [hq] at h
    simp only [e]
    exact hP prm' prm t n pt h

theorem CLI.WF.wf_of_frame {c c' : CLI} (h : WF c) (f : Frame c c') : WF c' := by
  obtain ⟨h1, h2, h3, h4⟩ := h
  refine ⟨?_, ?_, ?_, ?_⟩
  · rw [f.positionals]
    intro p hp
    refine holdsAt_of_frame f p _ ?_ (h1 p hp)
    intro x y t _ pt hy
    simp only [decide_eq_true_eq, Bool.decide_and, Bool.and_eq_true] at hy ⊢
    exact ⟨t.trans hy.1, pt.trans hy.2⟩
  · rw [f.positionals]
    exact h2
  · rw [f.params_by_pattern]
    intro e he
    refine ⟨holdsAt_of_frame f e.2 _ ?_ (h3 e he).1, (h3 e he).2⟩
    intro x y t _ pt hy
    simp only [decide_eq_true_eq, Bool.decide_and, Bool.and_eq_true, ne_eq, decide_not,
      Bool.not_eq_true'] at hy ⊢
    simp only [decide_eq_false_iff_not] at hy ⊢
    exact ⟨pt.trans hy.1, fun hx => hy.2 (t.symm.trans hx)⟩
  · rw [f.params_by_name]
    intro e he
    refine holdsAt_of_frame f e.2 _ ?_ (h4 e he)
    intro x y _ n _ hy
    simp only [decide_eq_true_eq] at hy ⊢
    exact n.trans hy

theorem holdsAt_live {c : CLI} {p : Ptr} {P : param_t → Bool} (h : c.holdsAt p P = true) :
    p < c.heap.length := by
  unfold holdsAt at h
  cases hq : c.heap[p]? with
  | none => simp [hq] at h
  | some prm => exact (List.getElem?_eq_some.mp hq).1

theorem CLI.WF.live {c : CLI} (h : WF c) : Live c :=
  ⟨fun p hp => holdsAt_live (h.1 p hp), fun e he => holdsAt_live (h.2.2.1 e he).1⟩

theorem mapGet_mem (k : Str) (p : Ptr) (m : PMap) (h : mapGet k m = some p) : (k, p) ∈ m := by
  induction m with
  | nil => simp [mapGet] at h
  | cons e m ih =>
    obtain ⟨k', p'⟩ := e
    by_cases hk : k' = k
    · simp only [mapGet, hk, if_true, Option.some.injEq] at h
      simp [hk, h]
    · simp only [mapGet, hk, if_false] at h
      simp [ih h]

/-- With live pointers the loop body completes at every token. -/
theorem parseBody_progress (argv : List Str) (i : Nat) (c : CLI) (hl : Live c)
    (hi : i < argv.length) : ∃ r, parseBody argv i c = some r := by
  have htok : argv[i]? = some argv[i] := List.getElem?_eq_getElem hi
  by_cases hlt : i - 1 < c.positionals.length
  · have hp : c.positionals[i - 1]? = some c.positionals[i - 1] := List.getElem?_eq_getElem hlt
    have hpl : c.positionals[i - 1] < c.heap.length := hl.1 _ (List.getElem_mem hlt)
    exact ⟨_, parseBody_positional argv i c _ _ _ hp (List.getElem?_eq_getElem hpl) htok⟩
  · have hpos : c.positionals.length ≤ i - 1 := by omega
    cases hget : mapGet (StripPattern (SplitAtEqual argv[i] argv[i]).1) c.params_by_pattern with
    | none => exact ⟨_, parseBody_unknown argv i c _ hpos htok hget⟩
    | some p =>
      have hpl : p < c.heap.length := hl.2 _ (mapGet_mem _ _ _ hget)
      rw [parseBody_matched argv i c _ p _ hpos htok hget (List.getElem?_eq_getElem hpl)]
      split
      · split
        · exact ⟨_, rfl⟩
        · split
          · rename_i hn
            have hlt2 : i + 1 < argv.length := by omega
            rw [List.getElem?_eq_getElem hlt2]
            exact ⟨_, rfl⟩
          · exact ⟨_, rfl⟩
      · split
        · exact ⟨_, rfl⟩
        · exact ⟨_, rfl⟩

/-! ## The loop -/

theorem parseLoop_frame (argv : List Str) (fuel i : Nat) (c c' : CLI)
    (h : parseLoop argv fuel i c = some c') : Frame c c' := by
  induction fuel generalizing i c with
  | zero =>
    simp only [parseLoop] at h
    split at h
    · exact absurd h (by simp)
    · rw [← Option.some.inj h]
      exact Frame.frame_refl c
  | succ fuel ih =>
    simp only [parseLoop] at h
    split at h
    · cases hb : parseBody argv i c with
      | none => simp [hb] at h
      | some r =>
        obtain ⟨i1, c1⟩ := r
        simp only [hb] at h
        exact (parseBody_frame argv i i1 c c1 hb).1.frame_trans (ih _ _ h)
    · rw [← Option.some.inj h]
      exact Frame.frame_refl c

/-- The result of the loop does not depend on the fuel once there is one unit
of fuel for every token left. -/
theorem parseLoop_fuel (argv : List Str) (f f' i : Nat) (c : CLI)
    (hf : argv.length - i ≤ f) (hf' : argv.length - i ≤ f') :
    parseLoop argv f i c = parseLoop argv f' i c := by
  induction f generalizing f' i c with
  | zero =>
    have hi : ¬ (i < argv.length) := by omega
    cases f' <;> simp [parseLoop, hi]
  | succ f ih =>
    by_cases hi : i < argv.length
    · cases f' with
      | zero => omega
      | succ f' =>
        simp only [parseLoop, hi, if_true]
        cases hb : parseBody argv i c with
        | none => rfl
        | some r =>
          obtain ⟨i1, c1⟩ := r
          have := (parseBody_frame argv i i1 c c1 hb).2.1
          exact ih f' (i1 + 1) c1 (by omega) (by omega)
    · cases f' <;> simp [parseLoop, hi]

/-- With live pointers and one unit of fuel per remaining token, the loop
runs to its exit. -/
theorem parseLoop_total (argv : List Str) (fuel i : Nat) (c : CLI) (hl : Live c)
    (hf : argv.length - i ≤ fuel) : ∃ c', parseLoop argv fuel i c = some c' := by
  induction fuel generalizing i c with
  | zero =>
    have hi : ¬ (i < argv.length) := by omega
    exact ⟨c, by simp [parseLoop, hi]⟩
  | succ fuel ih =>
    by_cases hi : i < argv.length
    · obtain ⟨⟨i1, c1⟩, hb⟩ := parseBody_progress argv i c hl hi
      have hfr := parseBody_frame argv i i1 c c1 hb
      obtain ⟨c', hc'⟩ := ih (i1 + 1) c1 (hl.live_of_frame hfr.1) (by omega)
      exact ⟨c', by simp [parseLoop, hi, hb, hc']⟩
    · exact ⟨c, by simp [parseLoop, hi]⟩

/-- Splitting the loop at the head reached after `k` iterations. -/
theorem parseLoop_head (argv : List Str) (k f i : Nat) (c : CLI) :
    parseLoop argv (k + f) i c
      = (loopHead argv k i c).bind fun r => parseLoop argv f r.1 r.2 := by
  induction k generalizing i c with
  | zero => simp [loopHead]
  | succ k ih =>
    have e : k + 1 + f = (k + f) + 1 := by omega
    rw [e]
    by_cases hi : i < argv.length
    · simp only [parseLoop, loopHead, hi, if_true]
      cases hb : parseBody argv i c with
      | none => rfl
      | some r => exact ih _ _
    · cases f <;> simp [parseLoop, loopHead, hi]

theorem loopHead_frame (argv : List Str) (k i j : Nat) (c cj : CLI)
    (h : loopHead argv k i c = some (j, cj)) : Frame c cj ∧ i ≤ j := by
  induction k generalizing i c with
  | zero =>
    simp only [loopHead, Option.some.injEq, Prod.mk.injEq] at h
    obtain ⟨rfl, rfl⟩ := h
    exact ⟨Frame.frame_refl _, le_refl _⟩
  | succ k ih =>
    simp only [loopHead] at h
    split at h
    · cases hb : parseBody argv i c with
      | none => simp [hb] at h
      | some r =>
        obtain ⟨i1, c1⟩ := r
        simp only [hb] at h
        have hfr := parseBody_frame argv i i1 c c1 hb
        have := ih _ _ h
        exact ⟨hfr.1.frame_trans this.1, by omega⟩
    · simp only [Option.some.injEq, Prod.mk.injEq] at h
      obtain ⟨rfl, rfl⟩ := h
      exact ⟨Frame.frame_refl _, le_refl _⟩

/-- The method `parse` continues from any head its loop reaches. -/
theorem parse_from_head (c : CLI) (argv : List Str) (k j fuel : Nat) (cj : CLI)
    (h : loopHead argv k 1 { c with was_parsed := true } = some (j, cj))
    (hf : argv.length - j ≤ fuel) :
    parse c argv = parseLoop argv fuel j cj := by
  unfold parse
  rw [parseLoop_fuel argv argv.length (k + argv.length) 1 _ (by omega) (by omega),
    parseLoop_head, h]
  exact parseLoop_fuel argv _ _ j cj (by omega) hf

/-! ## Steps in flag position -/

theorem CLI.FlagFrame.flag_refl (c : CLI) : FlagFrame c c :=
  fun _ prm h => ⟨prm, h, Or.inl rfl, Or.inl rfl⟩

theorem CLI.FlagFrame.flag_trans {a b c : CLI} (f1 : Frame a b) (h1 : FlagFrame a b)
    (h2 : FlagFrame b c) : FlagFrame a c := by
  intro q prm h
  obtain ⟨prm1, e1, k1, v1⟩ := h1 q prm h
  obtain ⟨prm2, e2, k2, v2⟩ := h2 q prm1 e1
  obtain ⟨x, ex, tx, _⟩ := f1.obj q prm h
  have hx : x = prm1 := Option.some.inj (ex.symm.trans e1)
  subst hx
  refine ⟨prm2, e2, ?_, ?_⟩
  · rcases k1 with k1 | k1
    · rcases k2 with k2 | k2
      · exact Or.inl (k2.trans k1)
      · rw [f1.params_by_pattern] at k2
        exact Or.inr k2
    · exact Or.inr k1
  · rcases v2 with v2 | v2
    · rcases v1 with v1 | v1
      · exact Or.inl (v2.trans v1)
      · exact Or.inr v1
    · rw [tx] at v2
      exact Or.inr v2

theorem FlagFrame_of_set (c : CLI) (p : Ptr) (prm prm' : param_t) (e : Bool) (key : Str)
    (h : c.heap[p]? = some prm) (hk : mapGet key c.params_by_pattern = some p)
    (hv : prm'.value = prm.value ∨ prm.type = OPTION ∨ prm.type = LONG_OPTION) :
    FlagFrame c { c with heap := c.heap.set p prm', error_occured := e } := by
  intro q x hq
  have hpl : p < c.heap.length := (List.getElem?_eq_some.mp h).1
  by_cases hqp : p = q
  · subst hqp
    have hx : x = prm := Option.some.inj (hq.symm.trans h)
    subst hx
    exact ⟨prm', by simp [List.getElem?_set, hpl], Or.inr ⟨key, hk⟩, hv⟩
  · exact ⟨x, by simp [List.getElem?_set, hqp, hq], Or.inl rfl, Or.inl rfl⟩

theorem FlagFrame_of_error (c : CLI) : FlagFrame c { c with error_occured := true } :=
  fun _ prm h => ⟨prm, h, Or.inl rfl, Or.inl rfl⟩

theorem parseBody_flagFrame (argv : List Str) (i i' : Nat) (c c' : CLI)
    (hpos : c.positionals.length ≤ i - 1) (h : parseBody argv i c = some (i', c')) :
    FlagFrame c c' := by
  have hb := h
  rcases parseBody_inv argv i c (i', c') h with
    ⟨p, prm, tok, hp, _, _, _⟩ | ⟨tok, _, htok, _, hr⟩ | ⟨tok, p, prm, _, htok, hget, hprm⟩
  · have := (List.getElem?_eq_some.mp hp).1
    omega
  · obtain ⟨rfl, rfl⟩ := Prod.mk.inj hr
    exact FlagFrame_of_error c
  · rw [parseBody_matched argv i c tok p prm hpos htok hget hprm] at hb
    split at hb
    · rename_i hty
      split at hb
      · obtain ⟨rfl, rfl⟩ := Prod.mk.inj (Option.some.inj hb)
        exact FlagFrame_of_set c p prm _ c.error_occured _ hprm hget (Or.inr hty)
      · split at hb
        · obtain ⟨t, ht, hb⟩ := Option.map_eq_some'.mp hb
          obtain ⟨rfl, rfl⟩ := Prod.mk.inj hb
          exact FlagFrame_of_set c p prm _ c.error_occured _ hprm hget (Or.inr hty)
        · obtain ⟨rfl, rfl⟩ := Prod.mk.inj (Option.some.inj hb)
          exact FlagFrame_of_set c p prm _ true _ hprm hget (Or.inl rfl)
    · split at hb
      · obtain ⟨rfl, rfl⟩ := Prod.mk.inj (Option.some.inj hb)
        exact FlagFrame_of_set c p prm _ true _ hprm hget (Or.inl rfl)
      · obtain ⟨rfl, rfl⟩ := Prod.mk.inj (Option.some.inj hb)
        exact FlagFrame_of_set c p prm _ c.error_occured _ hprm hget (Or.inl rfl)

/-- Once the loop is past the positionals it stays in flag position. -/
theorem parseLoop_flagFrame (argv : List Str) (fuel i : Nat) (c c' : CLI)
    (hpos : c.positionals.length ≤ i - 1) (h : parseLoop argv fuel i c = some c') :
    FlagFrame c c' := by
  induction fuel generalizing i c with
  | zero =>
    simp only [parseLoop] at h
    split at h
    · exact absurd h (by simp)
    · rw [← Option.some.inj h]
      exact FlagFrame.flag_refl c
  | succ fuel ih =>
    simp only [parseLoop] at h
    split at h
    · cases hb : parseBody argv i c with
      | none => simp [hb] at h
      | some r =>
        obtain ⟨i1, c1⟩ := r
        simp only [hb] at h
        have hfr := parseBody_frame argv i i1 c c1 hb
        have hpos1 : c1.positionals.length ≤ i1 + 1 - 1 := by
          rw [hfr.1.positionals]
          omega
        exact FlagFrame.flag_trans hfr.1 (parseBody_flagFrame argv i i1 c c1 hpos hb)
          (ih _ _ hpos1 h)
    · rw [← Option.some.inj h]
      exact FlagFrame.flag_refl c

/-! ## Positionals -/

/-- In a well-formed registry the pattern index never points to a positional. -/
theorem WF_positional_not_indexed (c : CLI) (hwf : WF c) (k : Nat) (p : Ptr) (key : Str)
    (hp : c.positionals[k]? = some p) : mapGet key c.params_by_pattern ≠ some p := by
  intro hk
  have h1 := hwf.1 p (List.getElem?_mem hp)
  have h2 := (hwf.2.2.1 (key, p) (mapGet_mem key p _ hk)).1
  unfold holdsAt at h1 h2
  cases hq : c.heap[p]? with
  | none => simp [hq] at h1
  | some prm =>
    simp only [hq, Bool.decide_and, Bool.and_eq_true, decide_eq_true_eq] at h1 h2
    simp only [ne_eq, decide_not, Bool.not_eq_true', decide_eq_false_iff_not] at h2
    exact h2.2 h1.1

/-- One loop body in a well-formed registry, seen from the positionals: the
positional of the current index is filled with the token, every other
positional object is left as it is. -/
theorem parseBody_positionals (argv : List Str) (i i1 : Nat) (c c1 : CLI) (hwf : WF c)
    (h : parseBody argv i c = some (i1, c1)) :
    (∀ k p, c.positionals[k]? = some p → k ≠ i - 1 → c1.heap[p]? = c.heap[p]?) ∧
    (i - 1 < c.positionals.length → i1 = i ∧
      ∀ p prm tok, c.positionals[i - 1]? = some p → c.heap[p]? = some prm →
        argv[i]? = some tok → c1.heap[p]? = some { prm with found := true, value := tok }) := by
  rcases parseBody_inv argv i c (i1, c1) h with
    ⟨p, prm, tok, hp, hprm, htok, hr⟩ | ⟨tok, hpos, _, _, hr⟩ | ⟨tok, p, prm, hpos, _, _, _⟩
  · obtain ⟨rfl, rfl⟩ := Prod.mk.inj hr
    have hpl : p < c.heap.length := (List.getElem?_eq_some.mp hprm).1
    constructor
    · intro k q hq hk
      have hne : p ≠ q := by
        intro e
        subst e
        have hkl : k < c.positionals.length := (List.getElem?_eq_some.mp hq).1
        exact hk (List.getElem?_inj hkl hwf.2.1 (hq.trans hp.symm))
      simp [List.getElem?_set, hne]
    · intro _
      refine ⟨rfl, ?_⟩
      intro q prm' tok' hq hprm' htok'
      have e1 : q = p := Option.some.inj (hq.symm.trans hp)
      subst e1
      have e2 : prm' = prm := Option.some.inj (hprm'.symm.trans hprm)
      have e3 : tok' = tok := Option.some.inj (htok'.symm.trans htok)
      subst e2 e3
      simp [List.getElem?_set, hpl]
  · obtain ⟨rfl, rfl⟩ := Prod.mk.inj hr
    exact ⟨fun _ _ _ _ => rfl, fun hlt => absurd hlt (by omega)⟩
  · refine ⟨?_, fun hlt => absurd hlt (by omega)⟩
    intro k q hq _
    have hff := parseBody_flagFrame argv i i1 c c1 hpos h
    have hql : q < c.heap.length := hwf.live.1 q (List.getElem?_mem hq)
    obtain ⟨x, ex, hx, _⟩ := hff q _ (List.getElem?_eq_getElem hql)
    rcases hx with hx | ⟨key, hkey⟩
    · rw [ex, hx, List.getElem?_eq_getElem hql]
    · exact absurd hkey (WF_positional_not_indexed c hwf k q key hq)

/-- The loop from index `i` in a well-formed registry, seen from the
positionals: those whose token lies at or after `i` are filled with it, the
others (already passed, or without a token) are left as they are. -/
theorem parseLoop_positionals (argv : List Str) (fuel i : Nat) (c c' : CLI) (hwf : WF c)
    (hi : 1 ≤ i) (h : parseLoop argv fuel i c = some c') :
    (∀ k p, c.positionals[k]? = some p → (k + 1 < i ∨ argv.length ≤ k + 1) →
      c'.heap[p]? = c.heap[p]?) ∧
    (∀ k p prm tok, c.positionals[k]? = some p → c.heap[p]? = some prm → i ≤ k + 1 →
      argv[k + 1]? = some tok → c'.heap[p]? = some { prm with found := true, value := tok }) := by
  induction fuel generalizing i c with
  | zero =>
    simp only [parseLoop] at h
    split at h
    · exact absurd h (by simp)
    · rename_i hlen
      rw [← Option.some.inj h]
      refine ⟨fun _ _ _ _ => rfl, ?_⟩
      intro k p prm tok _ _ hik htok
      have := (List.getElem?_eq_some.mp htok).1
      omega
  | succ fuel ih =>
    simp only [parseLoop] at h
    split at h
    · cases hb : parseBody argv i c with
      | none => simp [hb] at h
      | some r =>
        obtain ⟨i1, c1⟩ := r
        simp only [hb] at h
        have hfr := parseBody_frame argv i i1 c c1 hb
        obtain ⟨b1, b2⟩ := parseBody_positionals argv i i1 c c1 hwf hb
        obtain ⟨r1, r2⟩ := ih (i1 + 1) c1 (hwf.wf_of_frame hfr.1) (by omega) h
        rw [hfr.1.positionals] at r1 r2
        constructor
        · intro k p hp hk
          rw [r1 k p hp (by omega), b1 k p hp (by omega)]
        · intro k p prm tok hp hprm hik htok
          have hkl : k < c.positionals.length := (List.getElem?_eq_some.mp hp).1
          obtain ⟨e1, b2⟩ := b2 (by omega)
          by_cases hk : k + 1 = i
          · have hk' : i - 1 = k := by omega
            rw [hk'] at b2
            rw [← hk] at b2
            rw [r1 k p hp (by omega)]
            exact b2 p prm tok hp hprm htok
          · have hc1 : c1.heap[p]? = some prm := by
              rw [b1 k p hp (by omega)]
              exact hprm
            exact r2 k p prm tok hp hc1 (by omega) htok
    · rename_i hlen
      rw [← Option.some.inj h]
      refine ⟨fun _ _ _ _ => rfl, ?_⟩
      intro k p prm tok _ _ hik htok
      have := (List.getElem?_eq_some.mp htok).1
      omega

/-- The method `parse` returns on every token list when the pointers of the
positional vector and of the pattern index are live. -/
theorem parse_total (c : CLI) (argv : List Str) (hl : Live c) : ∃ c', parse c argv = some c' :=
  parseLoop_total argv argv.length 1 { c with was_parsed := true } hl (by omega)

/-- The method `parse` sets `was_parsed` and then stays within `Frame`. -/
theorem parse_frame (c c' : CLI) (argv : List Str) (h : parse c argv = some c') :
    Frame { c with was_parsed := true } c' :=
  parseLoop_frame argv argv.length 1 { c with was_parsed := true } c' h

/-- A filter keeps the front of a list in place as long as the front passes. -/
theorem filter_getElem?_of_front {α : Type} (P : α → Bool) (l : List α) (n k : Nat)
    (h : ∀ x ∈ l.take n, P x = true) (hk : k < n) : (l.filter P)[k]? = l[k]? := by
  induction l generalizing n k with
  | nil => rfl
  | cons a l ih =>
    cases n with
    | zero => omega
    | succ n =>
      have ha : P a = true := h a (by simp)
      have hl : ∀ x ∈ l.take n, P x = true := fun x hx => h x (by simp [hx])
      cases k with
      | zero => simp [List.filter, ha]
      | succ k =>
        simp only [List.filter, ha, List.getElem?_cons_succ]
        exact ih n k hl (by omega)

/-! ## Appending a token -/

theorem getElem?_append_one_lt (T : List Str) (u : Str) (i : Nat) (hi : i < T.length) :
    (T ++ [u])[i]? = T[i]? := by
  rw [List.getElem?_append_left hi]

/-- A loop body over `T ++ [u]` that does not touch the appended token is the
loop body over `T`. -/
theorem parseBody_append (T : List Str) (u : Str) (i i1 : Nat) (c c1 : CLI)
    (h : parseBody (T ++ [u]) i c = some (i1, c1)) (hi1 : i1 < T.length) :
    parseBody T i c = some (i1, c1) := by
  have hfr := parseBody_frame (T ++ [u]) i i1 c c1 h
  have hi : i < T.length := by omega
  have hb := h
  rcases parseBody_inv (T ++ [u]) i c (i1, c1) h with
    ⟨p, prm, tok, hp, hprm, htok, hr⟩ | ⟨tok, hpos, htok, hget, hr⟩ |
    ⟨tok, p, prm, hpos, htok, hget, hprm⟩
  · rw [getElem?_append_one_lt T u i hi] at htok
    rw [parseBody_positional T i c p prm tok hp hprm htok, hr]
  · rw [getElem?_append_one_lt T u i hi] at htok
    rw [parseBody_unknown T i c tok hpos htok hget, hr]
  · rw [parseBody_matched (T ++ [u]) i c tok p prm hpos htok hget hprm] at hb
    rw [getElem?_append_one_lt T u i hi] at htok
    rw [parseBody_matched T i c tok p prm hpos htok hget hprm]
    split
    · rename_i hty
      simp only [hty, if_true] at hb
      split
      · rename_i hv
        simp only [hv, if_true] at hb
        exact hb
      · rename_i hv
        simp only [hv, if_false] at hb
        have hlen : (T ++ [u]).length - 1 = T.length := by simp
        rw [hlen] at hb
        simp only [hi, if_true] at hb
        obtain ⟨t, ht, hb⟩ := Option.map_eq_some'.mp hb
        have e1 : i + 1 = i1 := (Prod.mk.inj hb).1
        have hlt : i < T.length - 1 := by omega
        have hlt1 : i + 1 < T.length := by omega
        rw [getElem?_append_one_lt T u (i + 1) hlt1] at ht
        simp only [hlt, if_true, ht, Option.map_some']
        rw [hb]
    · rename_i hty
      simp only [hty, if_false] at hb
      exact hb

/-- A head of the loop over `T ++ [u]` at the appended token is a head of the
loop over `T`, in the same state. -/
theorem loopHead_append (T : List Str) (u : Str) (k i : Nat) (c cj : CLI)
    (h : loopHead (T ++ [u]) k i c = some (T.length, cj)) :
    loopHead T k i c = some (T.length, cj) := by
  induction k generalizing i c with
  | zero => exact h
  | succ k ih =>
    simp only [loopHead] at h
    split at h
    · cases hb : parseBody (T ++ [u]) i c with
      | none => simp [hb] at h
      | some r =>
        obtain ⟨i1, c1⟩ := r
        simp only [hb] at h
        have hfr := parseBody_frame (T ++ [u]) i i1 c c1 hb
        have hle := (loopHead_frame (T ++ [u]) k (i1 + 1) T.length c1 cj h).2
        have hi1 : i1 < T.length := by omega
        have hi : i < T.length := by omega
        simp only [loopHead, hi, if_true, parseBody_append T u i i1 c c1 hb hi1]
        exact ih _ _ h
    · rename_i hi
      simp only [Option.some.injEq, Prod.mk.injEq] at h
      simp at hi
      omega

/-- The loop started at its exit returns the state unchanged. -/
theorem parseLoop_exit (argv : List Str) (fuel i : Nat) (c : CLI) (hi : argv.length ≤ i) :
    parseLoop argv fuel i c = some c := by
  have : ¬ (i < argv.length) := by omega
  cases fuel <;> simp [parseLoop, this]

/-! ## Reading integers -/

theorem digitsVal_eq_foldl (acc : Nat) (s : Str) :
    digitsVal acc s
      = (s.takeWhile isdigit).foldl (fun a ch => a * 10 + (ch.toNat - 48)) acc := by
  induction s generalizing acc with
  | nil => rfl
  | cons ch rest ih =>
    by_cases hd : isdigit ch = true
    · simp [digitsVal, List.takeWhile, hd, ih]
    · simp [digitsVal, List.takeWhile, hd]

theorem digitsVal_zero_eq (s : Str) : digitsVal 0 s = decimalValue (s.takeWhile isdigit) :=
  digitsVal_eq_foldl 0 s

theorem toInt32_of_range (v : Int) (h1 : -(2 ^ 31) ≤ v) (h2 : v < 2 ^ 31) : toInt32 v = v := by
  unfold toInt32
  norm_num at h1 h2 ⊢
  omega

/-- Without overflow `atoi` is the numeric value of the string after its
leading white space. -/
theorem atoi_eq_numericValue (s : Str)
    (h1 : -(2 ^ 31) ≤ numericValue (s.dropWhile isspace))
    (h2 : numericValue (s.dropWhile isspace) < 2 ^ 31) :
    atoi s = numericValue (s.dropWhile isspace) := by
  have hv : strtol s = numericValue (s.dropWhile isspace) := by
    unfold strtol
    have hcore : (match s.dropWhile isspace with
        | [] => (0 : Int)
        | ch :: rest =>
          if ch = '-' then -(digitsVal 0 rest : Int)
          else if ch = '+' then (digitsVal 0 rest : Int)
          else (digitsVal 0 (ch :: rest) : Int)) = numericValue (s.dropWhile isspace) := by
      cases s.dropWhile isspace with
      | nil => rfl
      | cons ch rest => simp only [numericValue, digitsVal_zero_eq]
    simp only [hcore]
    norm_num at h1 h2 ⊢
    omega
  unfold atoi
  rw [hv]
  exact toInt32_of_range _ h1 h2

theorem digitsVal_of_no_digit (s : Str) (h : ∀ ch ∈ s, isdigit ch = false) :
    digitsVal 0 s = 0 := by
  cases s with
  | nil => rfl
  | cons ch rest => simp [digitsVal, h ch (by simp)]

/-- On a string without any digit `atoi` is 0. -/
theorem atoi_of_no_digit (s : Str) (h : ∀ ch ∈ s, isdigit ch = false) : atoi s = 0 := by
  have hd : ∀ ch ∈ s.dropWhile isspace, isdigit ch = false :=
    fun ch hch => h ch ((List.dropWhile_sublist _).subset hch)
  have hv : strtol s = 0 := by
    unfold strtol
    cases hs : s.dropWhile isspace with
    | nil => simp
    | cons ch rest =>
      rw [hs] at hd
      have hr : digitsVal 0 rest = 0 :=
        digitsVal_of_no_digit rest fun x hx => hd x (by simp [hx])
      have hc : digitsVal 0 (ch :: rest) = 0 := digitsVal_of_no_digit _ hd
      simp only [hr, hc]
      split <;> [skip; split] <;> simp
  unfold atoi
  rw [hv]
  rfl

/-! ## The value-reading accessors -/

theorem value_read (c : CLI) (name : Str) (p : Ptr) (prm : param_t)
    (hget : mapGet name c.params_by_name = some p) (hprm : c.heap[p]? = some prm) :
    c.value name = some (if valueReadFails prm then ([], { c with error_occured := true })
      else (prm.value, c)) := by
  obtain ⟨ty, nm, pt, ds, fd, vl⟩ := prm
  cases ty <;> cases fd <;>
    simp [CLI.value, hget, load, hprm, valueReadFails]

theorem asInt_read (c : CLI) (name : Str) (p : Ptr) (prm : param_t)
    (hget : mapGet name c.params_by_name = some p) (hprm : c.heap[p]? = some prm) :
    c.asInt name = some (if valueReadFails prm then (-1, { c with error_occured := true })
      else (atoi prm.value, c)) := by
  obtain ⟨ty, nm, pt, ds, fd, vl⟩ := prm
  cases ty <;> cases fd <;>
    simp [asInt, hget, load, hprm, valueReadFails]

/-! ## Flags keep their value -/

/-- In a well-formed registry a loop body never writes the `value` of a flag. -/
theorem parseBody_flag_value (argv : List Str) (i i1 : Nat) (c c1 : CLI) (hwf : WF c)
    (h : parseBody argv i c = some (i1, c1)) (q : Ptr) (prm : param_t)
    (hq : c.heap[q]? = some prm) (hty : prm.type = FLAG ∨ prm.type = LONG_FLAG) :
    ∃ prm1, c1.heap[q]? = some prm1 ∧ prm1.value = prm.value ∧ prm1.type = prm.type := by
  obtain ⟨x, ex, tx, _⟩ := (parseBody_frame argv i i1 c c1 h).1.obj q prm hq
  refine ⟨x, ex, ?_, tx⟩
  by_cases hlt : i - 1 < c.positionals.length
  · rcases parseBody_inv argv i c (i1, c1) h with
      ⟨p, prm0, tok, hp, hprm0, _, hr⟩ | ⟨_, hpos, _, _, _⟩ | ⟨_, _, _, hpos, _, _, _⟩
    · obtain ⟨rfl, rfl⟩ := Prod.mk.inj hr
      have hne : p ≠ q := by
        intro e
        subst e
        have h1 := hwf.1 p (List.getElem?_mem hp)
        unfold holdsAt at h1
        simp only [hq, Bool.decide_and, Bool.and_eq_true, decide_eq_true_eq] at h1
        rcases hty with hty | hty <;> rw [h1.1] at hty <;> exact absurd hty (by decide)
      have e2 : (c.heap.set p { prm0 with found := true, value := tok })[q]? = some prm := by
        simp [List.getElem?_set, hne, hq]
      rw [Option.some.inj (ex.symm.trans e2)]
    · omega
    · omega
  · have hff := parseBody_flagFrame argv i i1 c c1 (by omega) h
    obtain ⟨y, ey, _, hv⟩ := hff q prm hq
    have exy : x = y := Option.some.inj (ex.symm.trans ey)
    subst exy
    rcases hv with hv | hv | hv
    · exact hv
    · rcases hty with hty | hty <;> rw [hv] at hty <;> exact absurd hty (by decide)
    · rcases hty with hty | hty <;> rw [hv] at hty <;> exact absurd hty (by decide)

theorem loopHead_flag_value (argv : List Str) (k i j : Nat) (c cj : CLI) (hwf : WF c)
    (h : loopHead argv k i c = some (j, cj)) (q : Ptr) (prm : param_t)
    (hq : c.heap[q]? = some prm) (hty : prm.type = FLAG ∨ prm.type = LONG_FLAG) :
    ∃ prmj, cj.heap[q]? = some prmj ∧ prmj.value = prm.value ∧ prmj.type = prm.type := by
  induction k generalizing i c prm with
  | zero =>
    simp only [loopHead, Option.some.injEq, Prod.mk.injEq] at h
    obtain ⟨rfl, rfl⟩ := h
    exact ⟨prm, hq, rfl, rfl⟩
  | succ k ih =>
    simp only [loopHead] at h
    split at h
    · cases hb : parseBody argv i c with
      | none => simp [hb] at h
      | some r =>
        obtain ⟨i1, c1⟩ := r
        simp only [hb] at h
        obtain ⟨prm1, e1, v1, t1⟩ := parseBody_flag_value argv i i1 c c1 hwf hb q prm hq hty
        obtain ⟨prmj, ej, vj, tj⟩ :=
          ih _ _ (hwf.wf_of_frame (parseBody_frame argv i i1 c c1 hb).1) h prm1 e1
            (by rw [t1]; exact hty)
        exact ⟨prmj, ej, vj.trans v1, tj.trans t1⟩
    · simp only [Option.some.injEq, Prod.mk.injEq] at h
      obtain ⟨rfl, rfl⟩ := h
      exact ⟨prm, hq, rfl, rfl⟩

/-! ## The declaration calls build well-formed registries -/

theorem StripPattern_head (s : Str) : (StripPattern s).head? ≠ some '-' := by
  induction s with
  | nil => simp [StripPattern]
  | cons ch rest ih =>
    by_cases h : ch = '-'
    · simpa [StripPattern, h] using ih
    · simp [StripPattern, h]

theorem mem_mapSet (k : Str) (p : Ptr) (m : PMap) (e : Str × Ptr) (h : e ∈ mapSet k p m) :
    e = (k, p) ∨ e ∈ m := by
  induction m with
  | nil => simpa [mapSet] using h
  | cons x m ih =>
    obtain ⟨k', p'⟩ := x
    by_cases hk : k' = k
    · simp only [mapSet, hk, if_true, List.mem_cons] at h
      rcases h with h | h
      · exact Or.inl h
      · exact Or.inr (by simp [h])
    · simp only [mapSet, hk, if_false, List.mem_cons] at h
      rcases h with h | h
      · exact Or.inr (by simp [h])
      · rcases ih h with h | h
        · exact Or.inl h
        · exact Or.inr (by simp [h])

theorem holdsAt_push_old (c c' : CLI) (x : param_t) (hh : c'.heap = c.heap ++ [x]) (p : Ptr)
    (P : param_t → Bool) (h : c.holdsAt p P = true) : c'.holdsAt p P = true := by
  have hpl : p < c.heap.length := holdsAt_live h
  unfold holdsAt at *
  rw [hh, List.getElem?_append_left hpl]
  exact h

theorem holdsAt_push_new (c c' : CLI) (x : param_t) (hh : c'.heap = c.heap ++ [x])
    (P : param_t → Bool) (h : P x = true) : c'.holdsAt c.heap.length P = true := by
  unfold holdsAt
  rw [hh]
  simpa using h

theorem WF_fresh : WF fresh := by decide

theorem WF_mk3 (a b d : Str) : WF (mk3 a b d) := by
  refine ⟨?_, ?_, ?_, ?_⟩ <;> simp [mk3, fresh]

theorem WF_addPositional (c : CLI) (name description : Str) (h : WF c) :
    WF (c.addPositional name description) := by
  obtain ⟨h1, h2, h3, h4⟩ := h
  have hh : (c.addPositional name description).heap
      = c.heap ++ [MakeParam POSITIONAL name [] description] := rfl
  refine ⟨?_, ?_, ?_, ?_⟩
  · intro p hp
    have hp' : p ∈ c.positionals ++ [c.heap.length] := hp
    rcases List.mem_append.mp hp' with hp' | hp'
    · exact holdsAt_push_old c _ _ hh p _ (h1 p hp')
    · rw [List.mem_singleton.mp hp']
      exact holdsAt_push_new c _ _ hh _ (by simp [MakeParam, StripPattern])
  · show (c.positionals ++ [c.heap.length]).Nodup
    refine List.Nodup.append h2 (List.nodup_singleton _) ?_
    intro a ha hb
    have hlt : a < c.heap.length := holdsAt_live (h1 a ha)
    have heq : a = c.heap.length := List.mem_singleton.mp hb
    exact absurd heq (Nat.ne_of_lt hlt)
  · intro e he
    have he' : e ∈ c.params_by_pattern := he
    exact ⟨holdsAt_push_old c _ _ hh e.2 _ (h3 e he').1, (h3 e he').2⟩
  · intro e he
    have he' : e ∈ mapSet name c.heap.length c.params_by_name := he
    rcases mem_mapSet _ _ _ _ he' with he' | he'
    · rw [he']
      exact holdsAt_push_new c _ _ hh _ (by simp [MakeParam])
    · exact holdsAt_push_old c _ _ hh e.2 _ (h4 e he')

theorem WF_addPatterned (type : param_type_e) (c : CLI) (name pattern description : Str)
    (ht : type ≠ POSITIONAL) (h : WF c) : WF (addPatterned type c name pattern description) := by
  obtain ⟨h1, h2, h3, h4⟩ := h
  have hh : (addPatterned type c name pattern description).heap
      = c.heap ++ [MakeParam type name pattern description] := rfl
  refine ⟨?_, h2, ?_, ?_⟩
  · intro p hp
    have hp' : p ∈ c.positionals := hp
    exact holdsAt_push_old c _ _ hh p _ (h1 p hp')
  · intro e he
    have he' : e ∈ mapSet (StripPattern pattern) c.heap.length c.params_by_pattern := he
    rcases mem_mapSet _ _ _ _ he' with he' | he'
    · rw [he']
      exact ⟨holdsAt_push_new c _ _ hh _ (by simp [MakeParam, ht]), StripPattern_head pattern⟩
    · exact ⟨holdsAt_push_old c _ _ hh e.2 _ (h3 e he').1, (h3 e he').2⟩
  · intro e he
    have he' : e ∈ mapSet name c.heap.length c.params_by_name := he
    rcases mem_mapSet _ _ _ _ he' with he' | he'
    · rw [he']
      exact holdsAt_push_new c _ _ hh _ (by simp [MakeParam])
    · exact holdsAt_push_old c _ _ hh e.2 _ (h4 e he')

theorem WF_parse (c c' : CLI) (argv : List Str) (h : WF c) (hp : parse c argv = some c') :
    WF c' := by
  have h0 : WF { c with was_parsed := true } := h
  exact h0.wf_of_frame (parse_frame c c' argv hp)

/-! ## Stripping dashes -/

theorem StripPattern_eq_dropWhile (s : Str) :
    StripPattern s = s.dropWhile fun ch => ch = '-' := by
  induction s with
  | nil => rfl
  | cons ch rest ih =>
    by_cases h : ch = '-'
    · simp [StripPattern, List.dropWhile, h, ih]
    · simp [StripPattern, List.dropWhile, h]

theorem stripLoop_eq (fuel : Nat) (s : Str) (hs : s ≠ []) (hf : s.length ≤ fuel) :
    stripLoop fuel s = some (StripPattern s) := by
  induction fuel generalizing s with
  | zero =>
    have : s.length = 0 := by omega
    exact absurd (List.length_eq_zero.mp this) hs
  | succ fuel ih =>
    cases s with
    | nil => exact absurd rfl hs
    | cons ch rest =>
      by_cases h : ch = '-'
      · cases rest with
        | nil => simp [stripLoop, StripPattern, h]
        | cons x xs =>
          have hl : (x :: xs).length ≤ fuel := by
            simp only [List.length_cons] at hf ⊢
            omega
          simp only [stripLoop, h, if_true, List.length_cons, Nat.add_one_ne_zero, if_false]
          rw [ih (x :: xs) (List.cons_ne_nil _ _) hl]
          simp [StripPattern]
      · simp [stripLoop, StripPattern, h]

theorem StripPatternChecked_eq (s : Str) : StripPatternChecked s = some (StripPattern s) := by
  unfold StripPatternChecked
  cases s with
  | nil => rfl
  | cons ch rest =>
    simp only [List.length_cons, Nat.add_one_ne_zero, if_false]
    exact stripLoop_eq _ (ch :: rest) (List.cons_ne_nil _ _) (by simp)

theorem StripPattern_split (s : Str) :
    ∃ d : Str, (∀ ch ∈ d, ch = '-') ∧ s = d ++ StripPattern s := by
  induction s with
  | nil => exact ⟨[], by simp, rfl⟩
  | cons ch rest ih =>
    by_cases h : ch = '-'
    · obtain ⟨d, hd, e⟩ := ih
      refine ⟨ch :: d, ?_, ?_⟩
      · intro x hx
        rcases List.mem_cons.mp hx with hx | hx
        · rw [hx, h]
        · exact hd x hx
      · simp only [StripPattern, h, if_true, List.cons_append]
        rw [← e]
    · exact ⟨[], by simp, by simp [StripPattern, h]⟩

/-! ## The declaration calls -/

theorem mapGet_mapSet_same (k : Str) (p : Ptr) (m : PMap) : mapGet k (mapSet k p m) = some p := by
  induction m with
  | nil => simp [mapSet, mapGet]
  | cons e m ih =>
    obtain ⟨k', p'⟩ := e
    by_cases hk : k' = k
    · simp [mapSet, mapGet, hk]
    · simp [mapSet, mapGet, hk, ih]

theorem mapGet_mapSet_other (k k2 : Str) (p : Ptr) (m : PMap) (h : k2 ≠ k) :
    mapGet k2 (mapSet k p m) = mapGet k2 m := by
  induction m with
  | nil => simp [mapSet, mapGet, h.symm]
  | cons e m ih =>
    obtain ⟨k', p'⟩ := e
    by_cases hk : k' = k
    · have hk2 : ¬ k' = k2 := fun e => h (e.symm.trans hk)
      simp [mapSet, mapGet, hk, hk2, h.symm]
    · by_cases hk2 : k' = k2
      · subst hk2
        simp [mapSet, mapGet, hk]
      · simp [mapSet, mapGet, hk, hk2, ih]

/-- The postcondition of the four declarations that take a pattern. -/
theorem addPatterned_post (type : param_type_e) (c : CLI) (name pattern description : Str) :
    c.heap[c.heap.length]? = none ∧
    (addPatterned type c name pattern description).heap[c.heap.length]?
      = some { type := type, name := name, pattern := StripPattern pattern,
               description := description, found := false, value := [] } ∧
    mapGet name (addPatterned type c name pattern description).params_by_name
      = some c.heap.length ∧
    mapGet (StripPattern pattern) (addPatterned type c name pattern description).params_by_pattern
      = some c.heap.length ∧
    (∀ k, k ≠ name →
      mapGet k (addPatterned type c name pattern description).params_by_name
        = mapGet k c.params_by_name) ∧
    (∀ k, k ≠ StripPattern pattern →
      mapGet k (addPatterned type c name pattern description).params_by_pattern
        = mapGet k c.params_by_pattern) ∧
    (∀ (q : Ptr) (prm : param_t), c.heap[q]? = some prm →
      (addPatterned type c name pattern description).heap[q]? = some prm) ∧
    (addPatterned type c name pattern description).positionals = c.positionals := by
  refine ⟨by simp, ?_, ?_, ?_, ?_, ?_, ?_, rfl⟩
  · simp [addPatterned, alloc, MakeParam]
  · exact mapGet_mapSet_same _ _ _
  · exact mapGet_mapSet_same _ _ _
  · intro k hk
    exact mapGet_mapSet_other _ _ _ _ hk
  · intro k hk
    exact mapGet_mapSet_other _ _ _ _ hk
  · intro q prm hq
    have hql : q < c.heap.length := (List.getElem?_eq_some.mp hq).1
    show (c.heap ++ [MakeParam type name pattern description])[q]? = some prm
    rw [List.getElem?_append_left hql]
    exact hq

/-! ## The accessors and the state -/

theorem holdsAt_elim {c : CLI} {p : Ptr} {P : param_t → Bool} (h : c.holdsAt p P = true) :
    ∃ prm, c.heap[p]? = some prm ∧ P prm = true := by
  unfold holdsAt at h
  cases hq : c.heap[p]? with
  | none => simp [hq] at h
  | some prm =>
    simp only [hq] at h
    exact ⟨prm, rfl, h⟩

/-- In a well-formed registry the name index points to objects. -/
theorem WF_name_live (c : CLI) (hwf : WF c) (name : Str) (p : Ptr)
    (h : mapGet name c.params_by_name = some p) : ∃ prm, c.heap[p]? = some prm := by
  obtain ⟨prm, hprm, _⟩ := holdsAt_elim (hwf.2.2.2 (name, p) (mapGet_mem name p _ h))
  exact ⟨prm, hprm⟩

/-- Setting the error flag changes nothing when it is set already. -/
theorem set_error_of_error (c : CLI) (h : c.error_occured = true) :
    { c with error_occured := true } = c := by
  cases c
  simp only [CLI.mk.injEq, true_and]
  simp only at h
  exact h.symm

theorem is_state (c c' : CLI) (name : Str) (r : Bool) (h : c.is name = some (r, c')) :
    c' = c ∨ c' = { c with error_occured := true } := by
  unfold CLI.is at h
  cases hg : mapGet name c.params_by_name with
  | none =>
    simp only [hg, Option.some.injEq, Prod.mk.injEq] at h
    exact Or.inr h.2.symm
  | some p =>
    cases hl : c.heap[p]? with
    | none => simp [hg, load, hl] at h
    | some prm =>
      simp only [hg, load, hl, Option.bind_eq_bind, Option.some_bind, Option.pure_def,
        Option.some.injEq, Prod.mk.injEq] at h
      exact Or.inl h.2.symm

theorem value_state (c c' : CLI) (name : Str) (r : Str) (h : c.value name = some (r, c')) :
    c' = c ∨ c' = { c with error_occured := true } := by
  cases hg : mapGet name c.params_by_name with
  | none =>
    simp only [CLI.value, hg, Option.some.injEq, Prod.mk.injEq] at h
    exact Or.inr h.2.symm
  | some p =>
    cases hl : c.heap[p]? with
    | none => simp [CLI.value, hg, load, hl] at h
    | some prm =>
      rw [value_read c name p prm hg hl] at h
      split at h
      · exact Or.inr (Prod.mk.inj (Option.some.inj h)).2.symm
      · exact Or.inl (Prod.mk.inj (Option.some.inj h)).2.symm

theorem asInt_state (c c' : CLI) (name : Str) (r : Int) (h : c.asInt name = some (r, c')) :
    c' = c ∨ c' = { c with error_occured := true } := by
  cases hg : mapGet name c.params_by_name with
  | none =>
    simp only [asInt, hg, Option.some.injEq, Prod.mk.injEq] at h
    exact Or.inr h.2.symm
  | some p =>
    cases hl : c.heap[p]? with
    | none => simp [asInt, hg, load, hl] at h
    | some prm =>
      rw [asInt_read c name p prm hg hl] at h
      split at h
      · exact Or.inr (Prod.mk.inj (Option.some.inj h)).2.symm
      · exact Or.inl (Prod.mk.inj (Option.some.inj h)).2.symm

/-- In a well-formed registry every accessor returns. -/
theorem is_total (c : CLI) (hwf : WF c) (name : Str) : ∃ r c', c.is name = some (r, c') := by
  cases hg : mapGet name c.params_by_name with
  | none => exact ⟨false, { c with error_occured := true }, by simp [CLI.is, hg]⟩
  | some p =>
    obtain ⟨prm, hprm⟩ := WF_name_live c hwf name p hg
    exact ⟨prm.found, c, by simp [CLI.is, hg, load, hprm]⟩

theorem value_total (c : CLI) (hwf : WF c) (name : Str) :
    ∃ r c', c.value name = some (r, c') := by
  cases hg : mapGet name c.params_by_name with
  | none => exact ⟨[], { c with error_occured := true }, by simp [CLI.value, hg]⟩
  | some p =>
    obtain ⟨prm, hprm⟩ := WF_name_live c hwf name p hg
    exact ⟨_, _, value_read c name p prm hg hprm⟩

theorem asInt_total (c : CLI) (hwf : WF c) (name : Str) :
    ∃ r c', c.asInt name = some (r, c') := by
  cases hg : mapGet name c.params_by_name with
  | none => exact ⟨-1, { c with error_occured := true }, by simp [asInt, hg]⟩
  | some p =>
    obtain ⟨prm, hprm⟩ := WF_name_live c hwf name p hg
    exact ⟨_, _, asInt_read c name p prm hg hprm⟩

/-- Every registry a program can hold is well formed. -/
theorem Reachable_WF (c : CLI) (h : Reachable c) : WF c := by
  induction h with
  | fresh => exact WF_fresh
  | mk3 a b d => exact WF_mk3 a b d
  | addPositional c name description _ ih => exact WF_addPositional c name description ih
  | addFlag c name pattern description _ ih =>
    exact WF_addPatterned FLAG c name pattern description (by decide) ih
  | addLongFlag c name pattern description _ ih =>
    exact WF_addPatterned LONG_FLAG c name pattern description (by decide) ih
  | addOption c name pattern description _ ih =>
    exact WF_addPatterned OPTION c name pattern description (by decide) ih
  | addLongOption c name pattern description _ ih =>
    exact WF_addPatterned LONG_OPTION c name pattern description (by decide) ih
  | parse c c' argv _ hp ih => exact WF_parse c c' argv ih hp
  | is c c' name r _ hr ih =>
    rcases is_state c c' name r hr with e | e <;> rw [e]
    · exact ih
    · exact ih.wf_of_frame (Frame.of_error c)
  | value c c' name r _ hr ih =>
    rcases value_state c c' name r hr with e | e <;> rw [e]
    · exact ih
    · exact ih.wf_of_frame (Frame.of_error c)
  | asInt c c' name r _ hr ih =>
    rcases asInt_state c c' name r hr with e | e <;> rw [e]
    · exact ih
    · exact ih.wf_of_frame (Frame.of_error c)
  | error c _ ih => exact ih

/-- A state left by an accessor is the state before, or differs from it in the
error flag, which was clear and is set. -/
theorem same_or_raised (c c' : CLI) (h : c' = c ∨ c' = { c with error_occured := true }) :
    c' = c ∨ (c.error_occured = false ∧ c' = { c with error_occured := true }) := by
  rcases h with h | h
  · exact Or.inl h
  · cases he : c.error_occured with
    | true => exact Or.inl (h.trans (set_error_of_error c he))
    | false => exact Or.inr ⟨rfl, h⟩

theorem error_of_same_or_set (c c' : CLI) (he : c.error_occured = true)
    (h : c' = c ∨ c' = { c with error_occured := true }) : c'.error_occured = true := by
  rcases h with h | h <;> rw [h]
  exact he

/-! ## One more iteration -/

/-- The head after one more iteration of the loop. -/
theorem loopHead_succ (argv : List Str) (k i j i1 : Nat) (c cj c1 : CLI)
    (h : loopHead argv k i c = some (j, cj)) (hj : j < argv.length)
    (hb : parseBody argv j cj = some (i1, c1)) :
    loopHead argv (k + 1) i c = some (i1 + 1, c1) := by
  induction k generalizing i c with
  | zero =>
    simp only [loopHead, Option.some.injEq, Prod.mk.injEq] at h
    obtain ⟨rfl, rfl⟩ := h
    simp [loopHead, hj, hb]
  | succ k ih =>
    simp only [loopHead] at h
    split at h
    · rename_i hi
      cases hb0 : parseBody argv i c with
      | none => simp [hb0] at h
      | some r =>
        obtain ⟨i', c'⟩ := r
        simp only [hb0] at h
        have := ih _ _ h
        rw [loopHead]
        simp only [hi, if_true, hb0]
        exact this
    · simp only [Option.some.injEq, Prod.mk.injEq] at h
      obtain ⟨rfl, rfl⟩ := h
      omega

/-- At the exit of the loop the head stays where it is. -/
theorem loopHead_exit (argv : List Str) (k i : Nat) (c : CLI) (hi : argv.length ≤ i) :
    loopHead argv k i c = some (i, c) := by
  have : ¬ (i < argv.length) := by omega
  cases k <;> simp [loopHead, this]

/-! ## When `parse` raises no error -/

/-- A loop body that fills a positional, or whose token matches an option
with a value at hand, or a flag without an inline value, leaves the error
flag as it is; the loop keeps it clear when every token it reaches in flag
position is of that sort. -/
theorem parseLoop_no_error (argv : List Str) (c0 : CLI) (hwf : WF c0)
    (hok : ∀ (k j : Nat) (cj : CLI) (tok : Str), loopHead argv k 1 c0 = some (j, cj) →
      c0.positionals.length ≤ j - 1 → argv[j]? = some tok →
      ∃ p prm, mapGet (StripPattern (SplitAtEqual tok tok).1) c0.params_by_pattern = some p ∧
        c0.heap[p]? = some prm ∧
        (prm.type = OPTION ∨ prm.type = LONG_OPTION → (SplitAtEqual tok tok).2 = [] →
          j + 1 < argv.length) ∧
        (prm.type = FLAG ∨ prm.type = LONG_FLAG → (SplitAtEqual tok tok).2 = []))
    (fuel k i : Nat) (ci c' : CLI) (hhead : loopHead argv k 1 c0 = some (i, ci))
    (herr : ci.error_occured = false) (h : parseLoop argv fuel i ci = some c') :
    c'.error_occured = false := by
  induction fuel generalizing k i ci with
  | zero =>
    simp only [parseLoop] at h
    split at h
    · exact absurd h (by simp)
    · rw [← Option.some.inj h]
      exact herr
  | succ fuel ih =>
    simp only [parseLoop] at h
    split at h
    · rename_i hi
      cases hb : parseBody argv i ci with
      | none => simp [hb] at h
      | some r =>
        obtain ⟨i1, c1⟩ := r
        simp only [hb] at h
        have hfr := (loopHead_frame argv k 1 i c0 ci hhead).1
        have hc1 : c1.error_occured = false := by
          have hb' := hb
          rcases parseBody_inv argv i ci (i1, c1) hb with
            ⟨p, prm, tok, _, _, _, hr⟩ | ⟨tok, hpos, htok, hget, _⟩ |
            ⟨tok, p, prm, hpos, htok, hget, hprm⟩
          · obtain ⟨rfl, rfl⟩ := Prod.mk.inj hr
            exact herr
          · rw [hfr.positionals] at hpos
            obtain ⟨p0, prm0, hg0, _⟩ := hok k i ci tok hhead hpos htok
            rw [hfr.params_by_pattern, hg0] at hget
            exact absurd hget (by simp)
          · have hpos0 := hpos
            rw [hfr.positionals] at hpos0
            obtain ⟨p0, prm0, hg0, hprm0, hb1, hb2⟩ := hok k i ci tok hhead hpos0 htok
            have hpp : p0 = p := by
              rw [hfr.params_by_pattern, hg0] at hget
              exact Option.some.inj hget
            subst hpp
            obtain ⟨x, ex, tx, _⟩ := hfr.obj p0 prm0 hprm0
            have hx : x = prm := Option.some.inj (ex.symm.trans hprm)
            subst hx
            have hnp : prm0.type ≠ POSITIONAL := by
              obtain ⟨y, ey, hP⟩ :=
                holdsAt_elim (hwf.2.2.1 (_, p0) (mapGet_mem _ p0 _ hg0)).1
              have hy : y = prm0 := Option.some.inj (ey.symm.trans hprm0)
              subst hy
              simp only [Bool.decide_and, Bool.and_eq_true, decide_eq_true_eq, ne_eq,
                decide_not, Bool.not_eq_true', decide_eq_false_iff_not] at hP
              exact hP.2
            rw [parseBody_matched argv i ci tok p0 x hpos htok hget hprm] at hb'
            by_cases hopt : x.type = OPTION ∨ x.type = LONG_OPTION
            · simp only [hopt, if_true] at hb'
              by_cases hv : (SplitAtEqual tok tok).2.length > 0
              · simp only [hv, if_true] at hb'
                obtain ⟨rfl, rfl⟩ := Prod.mk.inj (Option.some.inj hb')
                exact herr
              · have hnil : (SplitAtEqual tok tok).2 = [] :=
                  List.length_eq_zero.mp (by omega)
                have hnext := hb1 (by rw [← tx]; exact hopt) hnil
                have hlt : i < argv.length - 1 := by omega
                simp only [hv, if_false, hlt, if_true] at hb'
                obtain ⟨t, _, hb'⟩ := Option.map_eq_some'.mp hb'
                obtain ⟨rfl, rfl⟩ := Prod.mk.inj hb'
                exact herr
            · have hflag : prm0.type = FLAG ∨ prm0.type = LONG_FLAG := by
                rw [tx] at hopt
                cases hty : prm0.type with
                | POSITIONAL => exact absurd hty hnp
                | FLAG => exact Or.inl rfl
                | LONG_FLAG => exact Or.inr rfl
                | OPTION => exact absurd (Or.inl hty) hopt
                | LONG_OPTION => exact absurd (Or.inr hty) hopt
              have hnil := hb2 hflag
              have hv : ¬ ((SplitAtEqual tok tok).2.length > 0) := by simp [hnil]
              simp only [hopt, if_false, hv] at hb'
              obtain ⟨rfl, rfl⟩ := Prod.mk.inj (Option.some.inj hb')
              exact herr
        exact ih (k + 1) (i1 + 1) c1 (loopHead_succ argv k 1 i i1 c0 ci c1 hhead hi hb) hc1 h
    · rw [← Option.some.inj h]
      exact herr

/-- Once the loop has been left, further iterations change nothing. -/
theorem loopHead_after_exit (argv : List Str) (k m i j : Nat) (c cj : CLI)
    (h : loopHead argv k i c = some (j, cj)) (hj : argv.length ≤ j) :
    loopHead argv (k + m) i c = some (j, cj) := by
  induction k generalizing i c with
  | zero =>
    simp only [loopHead, Option.some.injEq, Prod.mk.injEq] at h
    obtain ⟨rfl, rfl⟩ := h
    exact loopHead_exit argv _ i c hj
  | succ k ih =>
    simp only [loopHead] at h
    split at h
    · rename_i hi
      cases hb : parseBody argv i c with
      | none => simp [hb] at h
      | some r =>
        obtain ⟨i', c'⟩ := r
        simp only [hb] at h
        have e : k + 1 + m = (k + m) + 1 := by omega
        rw [e, loopHead]
        simp only [hi, if_true, hb]
        exact ih _ _ h
    · simp only [Option.some.injEq, Prod.mk.injEq] at h
      obtain ⟨rfl, rfl⟩ := h
      exact loopHead_exit argv _ i c hj

/-! ## The positional phase -/

/-- The first iterations of the loop in a well-formed registry, one per
declared positional that has a token: each consumes exactly one token, so the
head after `k` of them is at index `k + 1`; the error flag is as before and
no object outside the positional vector is touched. -/
theorem loopHead_positional_phase (argv : List Str) (c0 : CLI) (hwf : WF c0) (k : Nat)
    (hk : k ≤ c0.positionals.length) (hk2 : k ≤ argv.length - 1) :
    ∃ ck, loopHead argv k 1 c0 = some (k + 1, ck) ∧ Frame c0 ck ∧
      ck.error_occured = c0.error_occured ∧
      ∀ q, q ∉ c0.positionals → ck.heap[q]? = c0.heap[q]? := by
  induction k with
  | zero => exact ⟨c0, rfl, Frame.frame_refl c0, rfl, fun _ _ => rfl⟩
  | succ k ih =>
    obtain ⟨ck, hhead, hfr, herr, hq⟩ := ih (by omega) (by omega)
    have hwfk : WF ck := hwf.wf_of_frame hfr
    have hkl : k < ck.positionals.length := by
      rw [hfr.positionals]
      omega
    have hj : k + 1 < argv.length := by omega
    have hp : ck.positionals[k + 1 - 1]? = some ck.positionals[k] := by
      simp [List.getElem?_eq_getElem hkl]
    have hmem : ck.positionals[k] ∈ c0.positionals := by
      rw [← hfr.positionals]
      exact List.getElem_mem hkl
    have hpl : ck.positionals[k] < ck.heap.length :=
      hwfk.live.1 _ (List.getElem_mem hkl)
    have hb := parseBody_positional argv (k + 1) ck _ _ _ hp
      (List.getElem?_eq_getElem hpl) (List.getElem?_eq_getElem hj)
    refine ⟨_, loopHead_succ argv k 1 (k + 1) (k + 1) c0 ck _ hhead hj hb,
      hfr.frame_trans (parseBody_frame argv (k + 1) (k + 1) ck _ hb).1, herr, ?_⟩
    intro q hqn
    have hne : ck.positionals[k] ≠ q := fun e => hqn (e ▸ hmem)
    rw [← hq q hqn]
    simp [List.getElem?_set, hne]

/-! ## The end-to-end example -/

/-- C1: from a fresh CLI, after `addPositional("file")`,
`addLongOption("verbosity", "verbose")`, `addFlag("debug", "d")` and `parse` of
`["prog", "input.txt", "--verbose=3", "-d"]`, the queries `is("file")`,
`value("file")`, `value("verbosity")`, `is("debug")`, `error()`, made in this
order on the same object, return `true`, `"input.txt"`, `"3"`, `true` and
`false`, and none of the calls leaves defined behaviour. -/
theorem C1_end_to_end :
    (do
      let c := ((fresh.addPositional "file".toList []).addLongOption
        "verbosity".toList "verbose".toList []).addFlag "debug".toList "d".toList []
      let c ← c.parse ["prog".toList, "input.txt".toList, "--verbose=3".toList, "-d".toList]
      let (r1, c) ← c.is "file".toList
      let (r2, c) ← c.value "file".toList
      let (r3, c) ← c.value "verbosity".toList
      let (r4, c) ← c.is "debug".toList
      let (r5, _) := c.error
      pure (r1, r2, r3, r4, r5))
    = some (true, "input.txt".toList, "3".toList, true, false) := by
  decide

end scli

namespace scli

open CLI param_type_e

/-! ## The two styles of giving an option its value -/

/-- C2: in a well-formed registry without positionals, for an `OPTION` or
`LONG_OPTION` filed in the pattern index under a pattern `p` without `=`, and
a non-empty value `v`, `parse` of `[prog, "--" p, v]` and `parse` of
`[prog, "--" p "=" v]` from the same state end in the same state, in which the
option has `found = true` and `value = v` and the error flag is as before. -/
theorem C2_option_styles_agree (c : CLI) (prog p v : Str) (ptr : Ptr) (prm : param_t)
    (hwf : WF c) (hnopos : c.positionals = [])
    (hget : mapGet p c.params_by_pattern = some ptr) (hprm : c.heap[ptr]? = some prm)
    (hty : prm.type = OPTION ∨ prm.type = LONG_OPTION) (hp : '=' ∉ p) (hv : v ≠ []) :
    ∃ c', parse c [prog, '-' :: '-' :: p, v] = some c' ∧
      parse c [prog, '-' :: '-' :: p ++ '=' :: v] = some c' ∧
      c'.heap[ptr]? = some { prm with found := true, value := v } ∧
      c'.error_occured = c.error_occured := by
  have hhead : p.head? ≠ some '-' := (hwf.2.2.1 (p, ptr) (mapGet_mem p ptr _ hget)).2
  have hstrip : StripPattern ('-' :: '-' :: p) = p := by
    simp [StripPattern, StripPattern_of_head p hhead]
  have hne : '=' ∉ ('-' :: '-' :: p) := by simp [hp]
  have hpl : ptr < c.heap.length := (List.getElem?_eq_some.mp hprm).1
  have hvl : v.length > 0 := List.length_pos.mpr hv
  refine ⟨{ c with was_parsed := true,
                   heap := c.heap.set ptr { prm with found := true, value := v } }, ?_, ?_, ?_, rfl⟩
  · have hb := parseBody_matched [prog, '-' :: '-' :: p, v] 1 { c with was_parsed := true }
      ('-' :: '-' :: p) ptr prm (by simp [hnopos]) rfl
      (by rw [SplitAtEqual_none _ _ hne, hstrip]; exact hget) hprm
    rw [SplitAtEqual_none _ _ hne] at hb
    simp only [hty, if_true] at hb
    simp [parse, parseLoop, hb]
  · have hb := parseBody_matched [prog, '-' :: '-' :: p ++ '=' :: v] 1
      { c with was_parsed := true } ('-' :: '-' :: p ++ '=' :: v) ptr prm (by simp [hnopos]) rfl
      (by rw [SplitAtEqual_append _ _ _ hne, hstrip]; exact hget) hprm
    rw [SplitAtEqual_append _ _ _ hne] at hb
    simp only [hty, if_true, hvl, List.cons_append] at hb
    simp [parse, parseLoop, hb]
  · simp [List.getElem?_set, hpl]

/-- C2, witness: the option `verbosity` declared with pattern `verbose`, value `3`. -/
theorem C2_option_styles_agree_witness :
    ∃ c', parse (fresh.addLongOption "verbosity".toList "verbose".toList [])
        ["prog".toList, "--verbose".toList, "3".toList] = some c' ∧
      parse (fresh.addLongOption "verbosity".toList "verbose".toList [])
        ["prog".toList, "--verbose=3".toList] = some c' ∧
      c'.heap[0]? = some { MakeParam LONG_OPTION "verbosity".toList "verbose".toList [] with
        found := true, value := "3".toList } ∧
      c'.error_occured = false :=
  C2_option_styles_agree (fresh.addLongOption "verbosity".toList "verbose".toList [])
    "prog".toList "verbose".toList "3".toList 0
    (MakeParam LONG_OPTION "verbosity".toList "verbose".toList [])
    (by decide) (by decide) (by decide) (by decide) (by decide) (by decide) (by decide)

end scli

namespace scli

open CLI param_type_e

/-! ## Positionals are ordinal -/

/-- C3: in a well-formed registry, `parse` returns, and afterwards the `k`-th
declared positional whose token `argv[k + 1]` exists has `found = true` and
that token, verbatim, as its `value` (the rest of its record is as before),
while a positional without a token (`argv.length ≤ k + 1`) is exactly as it
was before the call. The tokens given to positionals are not looked up: with
`m` the smaller of the number of positionals and of tokens after the
invocation token, the loop head after `m` iterations is at index `m + 1`
(one token per iteration), in a state `cm` whose error flag is the one before
`parse` and in which every object outside the positional vector is as
before `parse`; `parse` continues from that head, and when every token went
to a positional, `cm` is the state `parse` returns. -/
theorem C3_positionals_ordinal (c : CLI) (argv : List Str) (hwf : WF c) :
    ∃ c' cm, parse c argv = some c' ∧
      (∀ k p prm tok, c.positionals[k]? = some p → c.heap[p]? = some prm →
        argv[k + 1]? = some tok →
        c'.heap[p]? = some { prm with found := true, value := tok }) ∧
      (∀ k p, c.positionals[k]? = some p → argv.length ≤ k + 1 →
        c'.heap[p]? = c.heap[p]?) ∧
      loopHead argv (min c.positionals.length (argv.length - 1)) 1
          { c with was_parsed := true }
        = some (min c.positionals.length (argv.length - 1) + 1, cm) ∧
      cm.error_occured = c.error_occured ∧
      (∀ q, q ∉ c.positionals → cm.heap[q]? = c.heap[q]?) ∧
      parseLoop argv argv.length (min c.positionals.length (argv.length - 1) + 1) cm
        = some c' ∧
      (argv.length ≤ c.positionals.length + 1 → c' = cm) := by
  obtain ⟨c', hc'⟩ := parse_total c argv hwf.live
  have hwf0 : WF { c with was_parsed := true } := hwf
  obtain ⟨r1, r2⟩ :=
    parseLoop_positionals argv argv.length 1 { c with was_parsed := true } c' hwf0 (le_refl 1) hc'
  obtain ⟨cm, hhead, _, herr, hq⟩ :=
    loopHead_positional_phase argv { c with was_parsed := true } hwf0
      (min c.positionals.length (argv.length - 1)) (Nat.min_le_left _ _) (Nat.min_le_right _ _)
  have hcont := parse_from_head c argv _ _ argv.length cm hhead (by omega)
  rw [hc'] at hcont
  refine ⟨c', cm, hc', fun k p prm tok hp hprm htok => r2 k p prm tok hp hprm (by omega) htok,
    fun k p hp hk => r1 k p hp (Or.inr hk), hhead, herr, hq, hcont.symm, ?_⟩
  intro hlen
  have hexit : argv.length ≤ min c.positionals.length (argv.length - 1) + 1 := by
    rw [Nat.min_def]
    split <;> omega
  rw [parseLoop_exit argv argv.length _ cm hexit] at hcont
  exact Option.some.inj hcont

/-- C3, witness: the positional `file` and the flag `debug` (pattern `d`), and
the single token `-d`: the positional takes it verbatim, the flag is not
marked found and no error is raised. -/
theorem C3_positionals_ordinal_witness :
    ∃ c' cm, parse positionalAndFlag ["prog".toList, "-d".toList] = some c' ∧
      (∀ k p prm tok, positionalAndFlag.positionals[k]? = some p →
        positionalAndFlag.heap[p]? = some prm →
        ["prog".toList, "-d".toList][k + 1]? = some tok →
        c'.heap[p]? = some { prm with found := true, value := tok }) ∧
      (∀ k p, positionalAndFlag.positionals[k]? = some p →
        ["prog".toList, "-d".toList].length ≤ k + 1 →
        c'.heap[p]? = positionalAndFlag.heap[p]?) ∧
      loopHead ["prog".toList, "-d".toList]
          (min positionalAndFlag.positionals.length (["prog".toList, "-d".toList].length - 1)) 1
          { positionalAndFlag with was_parsed := true }
        = some (min positionalAndFlag.positionals.length
            (["prog".toList, "-d".toList].length - 1) + 1, cm) ∧
      cm.error_occured = positionalAndFlag.error_occured ∧
      (∀ q, q ∉ positionalAndFlag.positionals → cm.heap[q]? = positionalAndFlag.heap[q]?) ∧
      parseLoop ["prog".toList, "-d".toList] ["prog".toList, "-d".toList].length
          (min positionalAndFlag.positionals.length
            (["prog".toList, "-d".toList].length - 1) + 1) cm = some c' ∧
      (["prog".toList, "-d".toList].length ≤ positionalAndFlag.positionals.length + 1 →
        c' = cm) :=
  C3_positionals_ordinal positionalAndFlag ["prog".toList, "-d".toList] (by decide)

end scli

namespace scli

open CLI param_type_e

/-! ## Positionals and tokens that look like flags -/

/-- C4, counterexample: with the positional `file` and the flag `debug` (pattern
`d`) declared, the token list `["prog", "-d", "input.txt"]` holds one token
that does not begin with a dash, `input.txt`; `parse` gives the positional
the value `-d`, the first token, and `input.txt` is not assigned to it. -/
theorem C4_counterexample :
    ((fresh.addPositional "file".toList []).addFlag "debug".toList "d".toList []).positionals
        = [0] ∧
      nonFlagTokens ["prog".toList, "-d".toList, "input.txt".toList] = ["input.txt".toList] ∧
      ((parse ((fresh.addPositional "file".toList []).addFlag "debug".toList "d".toList [])
        ["prog".toList, "-d".toList, "input.txt".toList]).bind fun c' =>
          (c'.heap[0]?).map fun prm => (prm.found, prm.value)) = some (true, "-d".toList) ∧
      "-d".toList ≠ "input.txt".toList := by
  decide

/-- C4 (amended): in a well-formed registry with `n` declared positionals, for
a token list whose first `n` tokens after the invocation token exist and do
not begin with a dash, `parse` returns and the `k`-th positional has
`found = true` and, as its value, the `k`-th token that does not begin with a
dash. -/
theorem C4_leading_non_flag_tokens (c : CLI) (argv : List Str) (hwf : WF c)
    (hlen : c.positionals.length + 1 ≤ argv.length)
    (hfront : ∀ tok ∈ argv.tail.take c.positionals.length, tok.head? ≠ some '-') :
    ∃ c', parse c argv = some c' ∧
      ∀ (k : Nat) (p : Ptr) (prm : param_t), c.positionals[k]? = some p → c.heap[p]? = some prm →
        ∃ tok, (nonFlagTokens argv)[k]? = some tok ∧
          c'.heap[p]? = some { prm with found := true, value := tok } := by
  obtain ⟨c', hc'⟩ := parse_total c argv hwf.live
  have hwf0 : WF { c with was_parsed := true } := hwf
  obtain ⟨_, r2⟩ :=
    parseLoop_positionals argv argv.length 1 { c with was_parsed := true } c' hwf0 (le_refl 1) hc'
  refine ⟨c', hc', ?_⟩
  intro k p prm hp hprm
  have hkl : k < c.positionals.length := (List.getElem?_eq_some.mp hp).1
  have hk1 : k + 1 < argv.length := by omega
  have htok : argv[k + 1]? = some argv[k + 1] := List.getElem?_eq_getElem hk1
  refine ⟨argv[k + 1], ?_, r2 k p prm _ hp hprm (by omega) htok⟩
  unfold nonFlagTokens
  rw [filter_getElem?_of_front _ argv.tail c.positionals.length k
    (fun x hx => by simpa using hfront x hx) hkl]
  cases argv with
  | nil => simp at hk1
  | cons a rest => simp

/-- C4 (amended), witness: two positionals, two plain tokens, then a flag. -/
theorem C4_leading_non_flag_tokens_witness :
    ∃ c', parse (((fresh.addPositional "a".toList []).addPositional "b".toList []).addFlag
          "debug".toList "d".toList [])
        ["prog".toList, "x".toList, "y".toList, "-d".toList] = some c' ∧
      ∀ (k : Nat) (p : Ptr) (prm : param_t),
        (((fresh.addPositional "a".toList []).addPositional "b".toList []).addFlag
          "debug".toList "d".toList []).positionals[k]? = some p →
        (((fresh.addPositional "a".toList []).addPositional "b".toList []).addFlag
          "debug".toList "d".toList []).heap[p]? = some prm →
        ∃ tok, (nonFlagTokens ["prog".toList, "x".toList, "y".toList, "-d".toList])[k]?
            = some tok ∧
          c'.heap[p]? = some { prm with found := true, value := tok } :=
  C4_leading_non_flag_tokens
    (((fresh.addPositional "a".toList []).addPositional "b".toList []).addFlag
      "debug".toList "d".toList [])
    ["prog".toList, "x".toList, "y".toList, "-d".toList] (by decide) (by decide) (by decide)

end scli

namespace scli

open CLI param_type_e

/-! ## An unrecognised token -/

/-- C5: let `u` be a token whose part before the first `=`, stripped of its
leading dashes, is not a key of the pattern index, and let the loop of `parse`
over `T ++ [u]` reach `u` at a loop head in flag position (after `k`
iterations, in state `cj`). Then `parse` of `T` and `parse` of `T ++ [u]` both
return, the second with the error flag set, and the second state is the first
one with the error flag set: every object, and with it every `found` and
`value`, is as `parse` of `T` leaves it. -/
theorem C5_unrecognised_token (c : CLI) (T : List Str) (u : Str) (k : Nat) (cj : CLI)
    (hu : mapGet (StripPattern (SplitAtEqual u u).1) c.params_by_pattern = none)
    (hreach : loopHead (T ++ [u]) k 1 { c with was_parsed := true } = some (T.length, cj))
    (hflag : c.positionals.length ≤ T.length - 1) :
    ∃ cT cTu, parse c T = some cT ∧ parse c (T ++ [u]) = some cTu ∧
      cTu.error_occured = true ∧ cTu.heap = cT.heap ∧
      cTu = { cT with error_occured := true } := by
  have hfr := (loopHead_frame (T ++ [u]) k 1 T.length _ cj hreach).1
  refine ⟨cj, { cj with error_occured := true }, ?_, ?_, rfl, rfl, rfl⟩
  · rw [parse_from_head c T k T.length 0 cj (loopHead_append T u k 1 _ cj hreach) (by omega)]
    exact parseLoop_exit T 0 T.length cj (le_refl _)
  · rw [parse_from_head c (T ++ [u]) k T.length 1 cj hreach (by simp)]
    have hpos : cj.positionals.length ≤ T.length - 1 := by
      rw [hfr.positionals]
      exact hflag
    have htok : (T ++ [u])[T.length]? = some u := by simp
    have hget : mapGet (StripPattern (SplitAtEqual u u).1) cj.params_by_pattern = none := by
      rw [hfr.params_by_pattern]
      exact hu
    simp [parseLoop, parseBody_unknown (T ++ [u]) T.length cj u hpos htok hget]

/-- C5, witness: after `["prog", "input.txt", "-d"]` the token `--nope=1` is
reached in flag position (third head of the loop) and is not declared. -/
theorem C5_unrecognised_token_witness :
    ∃ cT cTu,
      parse ((fresh.addPositional "file".toList []).addFlag "debug".toList "d".toList [])
        ["prog".toList, "input.txt".toList, "-d".toList] = some cT ∧
      parse ((fresh.addPositional "file".toList []).addFlag "debug".toList "d".toList [])
        (["prog".toList, "input.txt".toList, "-d".toList] ++ ["--nope=1".toList]) = some cTu ∧
      cTu.error_occured = true ∧ cTu.heap = cT.heap ∧
      cTu = { cT with error_occured := true } :=
  C5_unrecognised_token
    ((fresh.addPositional "file".toList []).addFlag "debug".toList "d".toList [])
    ["prog".toList, "input.txt".toList, "-d".toList] "--nope=1".toList 2
    { ((fresh.addPositional "file".toList []).addFlag "debug".toList "d".toList []) with
      was_parsed := true
      heap := [{ MakeParam POSITIONAL "file".toList [] [] with
                  found := true, value := "input.txt".toList },
               { MakeParam FLAG "debug".toList "d".toList [] with found := true }] }
    (by decide) (by decide) (by decide)

end scli

namespace scli

open CLI param_type_e

/-! ## The accessors -/

/-- C6: for a declared name whose entry in the name index points to the object
`prm`, `value(name)` and `asInt(name)` fail, that is set the error flag and
return `""` and `-1`, exactly when `prm` is a `FLAG` or a `LONG_FLAG` or has
`found = false`; otherwise `value(name)` returns the stored value, `asInt(name)`
returns its `atoi`, and the state, the error flag included, is unchanged. -/
theorem C6_value_read_fails_iff (c : CLI) (name : Str) (p : Ptr) (prm : param_t)
    (hget : mapGet name c.params_by_name = some p) (hprm : c.heap[p]? = some prm) :
    c.value name = some (if valueReadFails prm then ([], { c with error_occured := true })
      else (prm.value, c)) ∧
    c.asInt name = some (if valueReadFails prm then (-1, { c with error_occured := true })
      else (atoi prm.value, c)) :=
  ⟨value_read c name p prm hget hprm, asInt_read c name p prm hget hprm⟩

/-- C6, witness: the positional `n` holding `3`; both reads succeed and leave
the state as it is. -/
theorem C6_value_read_fails_iff_witness :
    CLI.value (positionalRead "3".toList) "n".toList
      = some ("3".toList, positionalRead "3".toList) ∧
    asInt (positionalRead "3".toList) "n".toList = some (3, positionalRead "3".toList) :=
  C6_value_read_fails_iff (positionalRead "3".toList) "n".toList 0
    { MakeParam POSITIONAL "n".toList [] [] with found := true, value := "3".toList }
    (by decide) (by decide)

/-- C7: for a name that is not a key of the name index, in any state, `is`
returns `false`, `value` returns the empty string and `asInt` returns `-1`,
and the state after each call is the state before it with the error flag
set. -/
theorem C7_undeclared_name (c : CLI) (name : Str) (h : mapGet name c.params_by_name = none) :
    c.is name = some (false, { c with error_occured := true }) ∧
    c.value name = some ([], { c with error_occured := true }) ∧
    c.asInt name = some (-1, { c with error_occured := true }) ∧
    ({ c with error_occured := true } : CLI).error_occured = true := by
  simp [CLI.is, CLI.value, asInt, h]

/-- C7, witness: the name `nope` in a parsed registry that declares only `n`. -/
theorem C7_undeclared_name_witness :
    CLI.is (positionalRead "3".toList) "nope".toList
      = some (false, { positionalRead "3".toList with error_occured := true }) ∧
    CLI.value (positionalRead "3".toList) "nope".toList
      = some ([], { positionalRead "3".toList with error_occured := true }) ∧
    asInt (positionalRead "3".toList) "nope".toList
      = some (-1, { positionalRead "3".toList with error_occured := true }) ∧
    ({ positionalRead "3".toList with error_occured := true } : CLI).error_occured = true :=
  C7_undeclared_name (positionalRead "3".toList) "nope".toList (by decide)

end scli

namespace scli

open CLI param_type_e

/-! ## The integer read -/

/-- C8, counterexample: with the positional `n` declared, `parse` of
`["prog", " 42"]` stores the value `" 42"`, which does not start with a sign
or a digit, so the numeric value the claim describes is 0; `asInt("n")`
returns 42, because `atoi` skips leading white space. -/
theorem C8_counterexample :
    parse (fresh.addPositional "n".toList []) ["prog".toList, " 42".toList]
      = some (positionalRead " 42".toList) ∧
    asInt (positionalRead " 42".toList) "n".toList = some (42, positionalRead " 42".toList) ∧
    numericValue " 42".toList = 0 := by
  decide

/-- C8 (amended): for a declared, found parameter of kind `POSITIONAL`, `OPTION`
or `LONG_OPTION` with stored value `s`, `asInt(name)` leaves the state as it
is and returns the integer denoted by the longest numeric start (an optional
sign followed by digits, 0 when there is none) of `s` after its leading white
space, provided that integer fits in a 32-bit `int`; it returns 0 for every
`s` without a digit, such as `"abc"`, and 42 for `"42abc"`. -/
theorem C8_asInt_numeric (c : CLI) (name : Str) (p : Ptr) (prm : param_t)
    (hget : mapGet name c.params_by_name = some p) (hprm : c.heap[p]? = some prm)
    (hkind : prm.type = POSITIONAL ∨ prm.type = OPTION ∨ prm.type = LONG_OPTION)
    (hfound : prm.found = true) :
    (-(2 ^ 31) ≤ numericValue (prm.value.dropWhile isspace) →
      numericValue (prm.value.dropWhile isspace) < 2 ^ 31 →
      c.asInt name = some (numericValue (prm.value.dropWhile isspace), c)) ∧
    ((∀ ch ∈ prm.value, isdigit ch = false) → c.asInt name = some (0, c)) ∧
    (prm.value = "abc".toList → c.asInt name = some (0, c)) ∧
    (prm.value = "42abc".toList → c.asInt name = some (42, c)) := by
  have hread : c.asInt name = some (atoi prm.value, c) := by
    have h6 := (asInt_read c name p prm hget hprm)
    have hnf : valueReadFails prm = false := by
      rcases hkind with h | h | h <;> simp [valueReadFails, h, hfound]
    rw [h6, hnf]
    rfl
  refine ⟨?_, ?_, ?_, ?_⟩
  · intro h1 h2
    rw [hread, atoi_eq_numericValue prm.value h1 h2]
  · intro h
    rw [hread, atoi_of_no_digit prm.value h]
  · intro h
    have e : atoi "abc".toList = 0 := by decide
    rw [hread, h, e]
  · intro h
    have e : atoi "42abc".toList = 42 := by decide
    rw [hread, h, e]

/-- C8 (amended), witness: the positional `n` holding `42abc`. -/
theorem C8_asInt_numeric_witness :
    asInt (positionalRead "42abc".toList) "n".toList
      = some (42, positionalRead "42abc".toList) :=
  (C8_asInt_numeric (positionalRead "42abc".toList) "n".toList 0
    { MakeParam POSITIONAL "n".toList [] [] with found := true, value := "42abc".toList }
    (by decide) (by decide) (by decide) (by decide)).2.2.2 (by decide)

end scli

namespace scli

open CLI param_type_e

/-! ## Errors of `parse` -/

/-- C9: let the last token of the list be reached at a loop head in flag
position (after `k` iterations, in state `cj`), contain no `=` and, stripped
of its leading dashes, be the pattern-index key of an `OPTION` or a
`LONG_OPTION` whose record is then `prm`. Then `parse` returns with the error
flag set, and the option's record is `prm` with `found = true`: its value is
the one it had when the token was reached. -/
theorem C9_missing_option_value (c : CLI) (argv : List Str) (k j : Nat) (cj : CLI)
    (tok : Str) (ptr : Ptr) (prm : param_t)
    (hreach : loopHead argv k 1 { c with was_parsed := true } = some (j, cj))
    (hlast : j + 1 = argv.length) (hflag : c.positionals.length ≤ j - 1)
    (htok : argv[j]? = some tok) (hne : '=' ∉ tok)
    (hget : mapGet (StripPattern tok) c.params_by_pattern = some ptr)
    (hprm : cj.heap[ptr]? = some prm)
    (hty : prm.type = OPTION ∨ prm.type = LONG_OPTION) :
    ∃ c' prm', parse c argv = some c' ∧ c'.error_occured = true ∧
      c'.heap[ptr]? = some prm' ∧ prm'.found = true ∧ prm'.value = prm.value ∧
      c' = { cj with heap := cj.heap.set ptr { prm with found := true },
                     error_occured := true } := by
  have hfr := (loopHead_frame argv k 1 j _ cj hreach).1
  have hpl : ptr < cj.heap.length := (List.getElem?_eq_some.mp hprm).1
  have hpos : cj.positionals.length ≤ j - 1 := by
    rw [hfr.positionals]
    exact hflag
  have hget' : mapGet (StripPattern (SplitAtEqual tok tok).1) cj.params_by_pattern
      = some ptr := by
    rw [hfr.params_by_pattern, SplitAtEqual_none tok tok hne]
    exact hget
  have hb := parseBody_matched argv j cj tok ptr prm hpos htok hget' hprm
  have hnl : ¬ (j < argv.length - 1) := by omega
  rw [SplitAtEqual_none tok tok hne] at hb
  simp only [hty, if_true, List.length_nil, gt_iff_lt, lt_self_iff_false, if_false, hnl] at hb
  refine ⟨_, { prm with found := true }, ?_, rfl, ?_, rfl, rfl, rfl⟩
  · rw [parse_from_head c argv k j 1 cj hreach (by omega)]
    have hj : j < argv.length := by omega
    simp only [parseLoop, hj, if_true, hb]
    have hj1 : ¬ (j + 1 < argv.length) := by omega
    simp [hj1]
  · simp [List.getElem?_set, hpl]

/-- C9, witness: `--verbose` as the last token, with nothing after it. -/
theorem C9_missing_option_value_witness :
    ∃ c' prm', parse (fresh.addLongOption "verbosity".toList "verbose".toList [])
        ["prog".toList, "--verbose".toList] = some c' ∧ c'.error_occured = true ∧
      c'.heap[0]? = some prm' ∧ prm'.found = true ∧
      prm'.value = (MakeParam LONG_OPTION "verbosity".toList "verbose".toList []).value ∧
      c' = { ({ (fresh.addLongOption "verbosity".toList "verbose".toList []) with
                was_parsed := true } : CLI) with
             heap := ({ (fresh.addLongOption "verbosity".toList "verbose".toList []) with
                was_parsed := true } : CLI).heap.set 0
                  { MakeParam LONG_OPTION "verbosity".toList "verbose".toList [] with
                    found := true },
             error_occured := true } :=
  C9_missing_option_value (fresh.addLongOption "verbosity".toList "verbose".toList [])
    ["prog".toList, "--verbose".toList] 0 1
    { (fresh.addLongOption "verbosity".toList "verbose".toList []) with was_parsed := true }
    "--verbose".toList 0 (MakeParam LONG_OPTION "verbosity".toList "verbose".toList [])
    (by decide) (by decide) (by decide) (by decide) (by decide) (by decide) (by decide)
    (by decide)

end scli

namespace scli

open CLI param_type_e

/-- C10, counterexample: the flag `x` declared with the pattern `a=b` is filed
in the pattern index under `a=b`; the token `--a=b=v`, which is dashes, that
pattern, `=` and the value `v`, is split at its first `=`, so `a` is looked up:
`parse` sets the error flag and the flag is not marked found. -/
theorem C10_counterexample :
    mapGet "a=b".toList (fresh.addFlag "x".toList "a=b".toList []).params_by_pattern = some 0 ∧
    "--a=b=v".toList = "--".toList ++ "a=b".toList ++ "=".toList ++ "v".toList ∧
    loopHead ["prog".toList, "--a=b=v".toList] 0 1
        { fresh.addFlag "x".toList "a=b".toList [] with was_parsed := true }
      = some (1, { fresh.addFlag "x".toList "a=b".toList [] with was_parsed := true }) ∧
    parse (fresh.addFlag "x".toList "a=b".toList []) ["prog".toList, "--a=b=v".toList]
      = some { fresh.addFlag "x".toList "a=b".toList [] with
          was_parsed := true, error_occured := true } ∧
    ((fresh.addFlag "x".toList "a=b".toList []).heap[0]?).map (fun prm => (prm.type, prm.found))
      = some (FLAG, false) := by
  decide

/-- C10 (amended): in a well-formed registry let a `FLAG` or `LONG_FLAG` with
record `prm` be filed in the pattern index under a pattern `p` without `=`,
and let a token made of dashes, `p`, `=` and a non-empty `v` be reached at a
loop head in flag position. Then `parse` returns with the error flag set, the
flag has `found = true`, and its `value` is the one it had before `parse`. -/
theorem C10_value_given_to_flag (c : CLI) (argv : List Str) (k j : Nat) (cj : CLI)
    (d p v : Str) (ptr : Ptr) (prm : param_t) (hwf : WF c)
    (hget : mapGet p c.params_by_pattern = some ptr) (hprm : c.heap[ptr]? = some prm)
    (hty : prm.type = FLAG ∨ prm.type = LONG_FLAG)
    (hd : ∀ ch ∈ d, ch = '-') (hp : '=' ∉ p) (hv : v ≠ [])
    (hreach : loopHead argv k 1 { c with was_parsed := true } = some (j, cj))
    (hflag : c.positionals.length ≤ j - 1)
    (htok : argv[j]? = some (d ++ p ++ '=' :: v)) :
    ∃ c' prm', parse c argv = some c' ∧ c'.error_occured = true ∧
      c'.heap[ptr]? = some prm' ∧ prm'.found = true ∧ prm'.value = prm.value := by
  have hwf0 : WF { c with was_parsed := true } := hwf
  have hfr := (loopHead_frame argv k 1 j _ cj hreach).1
  have hwfj : WF cj := hwf0.wf_of_frame hfr
  obtain ⟨prmj, ej, vj, tj⟩ := loopHead_flag_value argv k 1 j _ cj hwf0 hreach ptr prm hprm hty
  have hj : j < argv.length := (List.getElem?_eq_some.mp htok).1
  have hpl : ptr < cj.heap.length := (List.getElem?_eq_some.mp ej).1
  have hhead : p.head? ≠ some '-' := (hwf.2.2.1 (p, ptr) (mapGet_mem p ptr _ hget)).2
  have hdp : '=' ∉ d ++ p := by
    intro hmem
    rcases List.mem_append.mp hmem with h | h
    · exact absurd (hd _ h) (by decide)
    · exact hp h
  have hsplit : SplitAtEqual (d ++ p ++ '=' :: v) (d ++ p ++ '=' :: v) = (d ++ p, v) :=
    SplitAtEqual_append (d ++ p) v _ hdp
  have hpos : cj.positionals.length ≤ j - 1 := by
    rw [hfr.positionals]
    exact hflag
  have hget' : mapGet (StripPattern (SplitAtEqual (d ++ p ++ '=' :: v) (d ++ p ++ '=' :: v)).1)
      cj.params_by_pattern = some ptr := by
    rw [hfr.params_by_pattern, hsplit, StripPattern_dashes d p hd, StripPattern_of_head p hhead]
    exact hget
  have hb := parseBody_matched argv j cj _ ptr prmj hpos htok hget' ej
  have hnot : ¬ (prmj.type = OPTION ∨ prmj.type = LONG_OPTION) := by
    rw [tj]
    rcases hty with h | h <;> rw [h] <;> decide
  have hvl : v.length > 0 := List.length_pos.mpr hv
  rw [hsplit] at hb
  simp only [hnot, if_false, hvl, if_true] at hb
  have hfr1 := (parseBody_frame argv j j cj _ hb).1
  obtain ⟨c', hc'⟩ := parseLoop_total argv (argv.length - (j + 1)) (j + 1) _
    (hwfj.live.live_of_frame hfr1) (le_refl _)
  have hfr2 := parseLoop_frame argv _ _ _ c' hc'
  have hff := parseLoop_flagFrame argv _ (j + 1) _ c'
    (by show cj.positionals.length ≤ j + 1 - 1; omega) hc'
  have e1 : (cj.heap.set ptr { prmj with found := true })[ptr]?
      = some { prmj with found := true } := by
    simp [List.getElem?_set, hpl]
  obtain ⟨prm', e', _, _, _, _, f'⟩ := hfr2.obj ptr _ e1
  obtain ⟨y, ey, _, hval⟩ := hff ptr _ e1
  have exy : prm' = y := Option.some.inj (e'.symm.trans ey)
  subst exy
  refine ⟨c', prm', ?_, hfr2.error_mono rfl, e', f' rfl, ?_⟩
  · rw [parse_from_head c argv k j (argv.length - (j + 1) + 1) cj hreach (by omega)]
    simp only [parseLoop, hj, if_true, hb]
    exact hc'
  · rcases hval with h | h | h
    · exact h.trans vj
    · exact absurd (Or.inl h) hnot
    · exact absurd (Or.inr h) hnot

/-- C10 (amended), witness: the flag `debug` given a value, `-d=1`, followed by
another token. -/
theorem C10_value_given_to_flag_witness :
    ∃ c' prm', parse ((fresh.addFlag "debug".toList "d".toList []).addFlag
          "force".toList "f".toList [])
        ["prog".toList, "-d=1".toList, "-f".toList] = some c' ∧ c'.error_occured = true ∧
      c'.heap[0]? = some prm' ∧ prm'.found = true ∧
      prm'.value = (MakeParam FLAG "debug".toList "d".toList []).value :=
  C10_value_given_to_flag
    ((fresh.addFlag "debug".toList "d".toList []).addFlag "force".toList "f".toList [])
    ["prog".toList, "-d=1".toList, "-f".toList] 0 1
    { ((fresh.addFlag "debug".toList "d".toList []).addFlag "force".toList "f".toList []) with
      was_parsed := true }
    "-".toList "d".toList "1".toList 0 (MakeParam FLAG "debug".toList "d".toList [])
    (by decide) (by decide) (by decide) (by decide) (by decide) (by decide) (by decide)
    (by decide) (by decide) (by decide)

end scli

namespace scli

open CLI param_type_e

/-! ## `StripPattern` -/

/-- C17: for every string `s`, `StripPattern(s)` is `s` without its longest
run of leading dashes: `s` is a run of dashes followed by the result, the
result is empty or does not begin with a dash (so the run is maximal and
later dashes are kept), stripping twice is stripping once, and the loop of
the source, run with its `at(0)` check and one condition evaluation per
character as fuel, returns that result on every input. -/
theorem C17_StripPattern_leading_dashes (s : Str) :
    StripPattern s = s.dropWhile (fun ch => ch = '-') ∧
    (∃ d : Str, (∀ ch ∈ d, ch = '-') ∧ s = d ++ StripPattern s) ∧
    (StripPattern s).head? ≠ some '-' ∧
    StripPattern (StripPattern s) = StripPattern s ∧
    StripPatternChecked s = some (StripPattern s) :=
  ⟨StripPattern_eq_dropWhile s, StripPattern_split s, StripPattern_head s,
    StripPattern_of_head _ (StripPattern_head s), StripPatternChecked_eq s⟩

end scli

namespace scli

open CLI param_type_e

/-! ## The postcondition of the declaration calls -/

/-- C14: after `addFlag`, `addLongFlag`, `addOption` or
`addLongOption(name, pattern, description)` there is one new object, at an
address that held none, of the corresponding kind, with that name, the
dash-stripped pattern, the description, `found = false` and an empty value;
the name index maps `name` and the pattern index maps the stripped pattern to
it, whatever they held before; every other key of both indices maps to what it
mapped to, every older object is unchanged, and so is the positional vector.
After `addPositional(name, description)` the new object is a `POSITIONAL` with
an empty pattern, it is the last element of the positional vector and the
entry of `name` in the name index, every other name maps to what it mapped
to, every older object is unchanged, and the pattern index is the same. -/
theorem C14_declaration_postcondition (c : CLI) (name pattern description : Str) :
    (∀ c' type, (c' = c.addFlag name pattern description ∧ type = FLAG) ∨
        (c' = c.addLongFlag name pattern description ∧ type = LONG_FLAG) ∨
        (c' = c.addOption name pattern description ∧ type = OPTION) ∨
        (c' = c.addLongOption name pattern description ∧ type = LONG_OPTION) →
      c.heap[c.heap.length]? = none ∧
      c'.heap[c.heap.length]?
        = some { type := type, name := name, pattern := StripPattern pattern,
                 description := description, found := false, value := [] } ∧
      mapGet name c'.params_by_name = some c.heap.length ∧
      mapGet (StripPattern pattern) c'.params_by_pattern = some c.heap.length ∧
      (∀ k, k ≠ name → mapGet k c'.params_by_name = mapGet k c.params_by_name) ∧
      (∀ k, k ≠ StripPattern pattern →
        mapGet k c'.params_by_pattern = mapGet k c.params_by_pattern) ∧
      (∀ (q : Ptr) (prm : param_t), c.heap[q]? = some prm → c'.heap[q]? = some prm) ∧
      c'.positionals = c.positionals) ∧
    (c.addPositional name description).heap[c.heap.length]?
        = some { type := POSITIONAL, name := name, pattern := [],
                 description := description, found := false, value := [] } ∧
    (c.addPositional name description).positionals = c.positionals ++ [c.heap.length] ∧
    mapGet name (c.addPositional name description).params_by_name = some c.heap.length ∧
    (∀ k, k ≠ name →
      mapGet k (c.addPositional name description).params_by_name
        = mapGet k c.params_by_name) ∧
    (∀ (q : Ptr) (prm : param_t), c.heap[q]? = some prm →
      (c.addPositional name description).heap[q]? = some prm) ∧
    (c.addPositional name description).params_by_pattern = c.params_by_pattern := by
  refine ⟨?_, ?_, rfl, ?_, ?_, ?_, rfl⟩
  · intro c' type h
    rcases h with ⟨rfl, rfl⟩ | ⟨rfl, rfl⟩ | ⟨rfl, rfl⟩ | ⟨rfl, rfl⟩
    · exact addPatterned_post FLAG c name pattern description
    · exact addPatterned_post LONG_FLAG c name pattern description
    · exact addPatterned_post OPTION c name pattern description
    · exact addPatterned_post LONG_OPTION c name pattern description
  · simp [addPositional, alloc, MakeParam, StripPattern]
  · exact mapGet_mapSet_same _ _ _
  · intro k hk
    exact mapGet_mapSet_other _ _ _ _ hk
  · intro q prm hq
    have hql : q < c.heap.length := (List.getElem?_eq_some.mp hq).1
    show (c.heap ++ [MakeParam POSITIONAL name [] description])[q]? = some prm
    rw [List.getElem?_append_left hql]
    exact hq

end scli

namespace scli

open CLI param_type_e

/-! ## What persists -/

/-- C12: `parse` on a registry with live pointers returns, and every object
that has `found = true` before the call has `found = true` after it, whatever
the token list. -/
theorem C12_found_never_reset (c : CLI) (argv : List Str) (hl : Live c) :
    ∃ c', parse c argv = some c' ∧
      ∀ (q : Ptr) (prm : param_t), c.heap[q]? = some prm → prm.found = true →
        ∃ prm', c'.heap[q]? = some prm' ∧ prm'.found = true := by
  obtain ⟨c', hc'⟩ := parse_total c argv hl
  refine ⟨c', hc', ?_⟩
  intro q prm hq hf
  obtain ⟨prm', e, _, _, _, _, f⟩ := (parse_frame c c' argv hc').obj q prm hq
  exact ⟨prm', e, f hf⟩

/-- C12, witness: `parse` of `["prog", "-d"]` marks the flag `debug` found; a
second `parse`, of `["prog"]`, leaves it found, while the same token list on
the registry as declared leaves it not found. -/
theorem C12_found_never_reset_witness :
    parse (fresh.addFlag "debug".toList "d".toList []) ["prog".toList, "-d".toList]
      = some debugSeen ∧
    (∃ c', parse debugSeen ["prog".toList] = some c' ∧
      ∀ (q : Ptr) (prm : param_t), debugSeen.heap[q]? = some prm → prm.found = true →
        ∃ prm', c'.heap[q]? = some prm' ∧ prm'.found = true) ∧
    ((parse debugSeen ["prog".toList]).bind fun c' => (c'.heap[0]?).map fun prm => prm.found)
      = some true ∧
    ((parse (fresh.addFlag "debug".toList "d".toList []) ["prog".toList]).bind fun c' =>
      (c'.heap[0]?).map fun prm => prm.found) = some false :=
  ⟨by decide, C12_found_never_reset debugSeen ["prog".toList] (by decide), by decide, by decide⟩

/-- C13: `error()` returns the flag and the state as it is; and in a
well-formed registry whose error flag is set, the flag is set after each of
the five declaration calls, after `parse` of any token list, and after `is`,
`value` and `asInt` of any name, all of which return. -/
theorem C13_error_sticky (c : CLI) (hwf : WF c) :
    c.error = (c.error_occured, c) ∧
    (c.error_occured = true →
      (∀ name description, (c.addPositional name description).error_occured = true) ∧
      (∀ name pattern description,
        (c.addFlag name pattern description).error_occured = true ∧
        (c.addLongFlag name pattern description).error_occured = true ∧
        (c.addOption name pattern description).error_occured = true ∧
        (c.addLongOption name pattern description).error_occured = true) ∧
      (∀ argv, ∃ c', parse c argv = some c' ∧ c'.error_occured = true) ∧
      (∀ name, ∃ r c', c.is name = some (r, c') ∧ c'.error_occured = true) ∧
      (∀ name, ∃ r c', c.value name = some (r, c') ∧ c'.error_occured = true) ∧
      (∀ name, ∃ r c', c.asInt name = some (r, c') ∧ c'.error_occured = true) ∧
      c.error.2.error_occured = true) := by
  refine ⟨rfl, fun he => ⟨fun _ _ => he, fun _ _ _ => ⟨he, he, he, he⟩, ?_, ?_, ?_, ?_, he⟩⟩
  · intro argv
    obtain ⟨c', hc'⟩ := parse_total c argv hwf.live
    exact ⟨c', hc', (parse_frame c c' argv hc').error_mono he⟩
  · intro name
    obtain ⟨r, c', h⟩ := is_total c hwf name
    exact ⟨r, c', h, error_of_same_or_set c c' he (is_state c c' name r h)⟩
  · intro name
    obtain ⟨r, c', h⟩ := value_total c hwf name
    exact ⟨r, c', h, error_of_same_or_set c c' he (value_state c c' name r h)⟩
  · intro name
    obtain ⟨r, c', h⟩ := asInt_total c hwf name
    exact ⟨r, c', h, error_of_same_or_set c c' he (asInt_state c c' name r h)⟩

/-- C13, witness: the state after a failed query, `is("nope")`, on the parsed
registry with the flag `debug`; a later `parse` of `["prog", "-d"]` keeps the
error flag. -/
theorem C13_error_sticky_witness :
    ∃ c', parse { debugSeen with error_occured := true } ["prog".toList, "-d".toList]
        = some c' ∧ c'.error_occured = true :=
  (C13_error_sticky { debugSeen with error_occured := true } (by decide)).2 (by decide)
    |>.2.2.1 ["prog".toList, "-d".toList]

/-- C15: in a well-formed registry `is`, `value` and `asInt` return for every
name, declared or not, and the state after the call is the state before it,
or the state before it with the error flag, which was clear, set: the
positional vector, both indices, every object and `was_parsed` are the same.
`error()` leaves the whole state as it is. -/
theorem C15_accessors_read_only (c : CLI) (name : Str) (hwf : WF c) :
    (∃ r c', c.is name = some (r, c') ∧
      (c' = c ∨ (c.error_occured = false ∧ c' = { c with error_occured := true }))) ∧
    (∃ r c', c.value name = some (r, c') ∧
      (c' = c ∨ (c.error_occured = false ∧ c' = { c with error_occured := true }))) ∧
    (∃ r c', c.asInt name = some (r, c') ∧
      (c' = c ∨ (c.error_occured = false ∧ c' = { c with error_occured := true }))) ∧
    c.error.2 = c := by
  refine ⟨?_, ?_, ?_, rfl⟩
  · obtain ⟨r, c', h⟩ := is_total c hwf name
    exact ⟨r, c', h, same_or_raised c c' (is_state c c' name r h)⟩
  · obtain ⟨r, c', h⟩ := value_total c hwf name
    exact ⟨r, c', h, same_or_raised c c' (value_state c c' name r h)⟩
  · obtain ⟨r, c', h⟩ := asInt_total c hwf name
    exact ⟨r, c', h, same_or_raised c c' (asInt_state c c' name r h)⟩

/-- C15, witness: the three reads of the flag `debug` after it was seen. -/
theorem C15_accessors_read_only_witness :
    (∃ r c', debugSeen.is "debug".toList = some (r, c') ∧
      (c' = debugSeen ∨
        (debugSeen.error_occured = false ∧ c' = { debugSeen with error_occured := true }))) ∧
    (∃ r c', debugSeen.value "debug".toList = some (r, c') ∧
      (c' = debugSeen ∨
        (debugSeen.error_occured = false ∧ c' = { debugSeen with error_occured := true }))) ∧
    (∃ r c', debugSeen.asInt "debug".toList = some (r, c') ∧
      (c' = debugSeen ∨
        (debugSeen.error_occured = false ∧ c' = { debugSeen with error_occured := true }))) ∧
    debugSeen.error.2 = debugSeen :=
  C15_accessors_read_only debugSeen "debug".toList (by decide)

end scli

namespace scli

open CLI param_type_e

/-! ## The invariant of the indices -/

/-- C16: in every registry reachable from a constructor by declaration, `parse`
and accessor calls, every entry `k -> p` of the pattern index points to an
object whose pattern is `k` and whose kind is not `POSITIONAL`, and `k` does
not begin with a dash; every entry `k -> p` of the name index points to an
object whose name is `k`; every element of the positional vector points to a
`POSITIONAL` object with an empty pattern. Hence no pointer the pattern
index returns, which is what the flag and option branch of `parse` looks up,
is an element of the positional vector. -/
theorem C16_index_invariant (c : CLI) (h : Reachable c) :
    (∀ k p, (k, p) ∈ c.params_by_pattern →
      ∃ prm, c.heap[p]? = some prm ∧ prm.pattern = k ∧ k.head? ≠ some '-' ∧
        prm.type ≠ POSITIONAL) ∧
    (∀ k p, (k, p) ∈ c.params_by_name → ∃ prm, c.heap[p]? = some prm ∧ prm.name = k) ∧
    (∀ p ∈ c.positionals,
      ∃ prm, c.heap[p]? = some prm ∧ prm.type = POSITIONAL ∧ prm.pattern = []) ∧
    (∀ key p, mapGet key c.params_by_pattern = some p →
      p ∉ c.positionals ∧ ∃ prm, c.heap[p]? = some prm ∧ prm.type ≠ POSITIONAL) := by
  have hwf := Reachable_WF c h
  have h1 : ∀ k p, (k, p) ∈ c.params_by_pattern →
      ∃ prm, c.heap[p]? = some prm ∧ prm.pattern = k ∧ k.head? ≠ some '-' ∧
        prm.type ≠ POSITIONAL := by
    intro k p hm
    obtain ⟨hh, hd⟩ := hwf.2.2.1 (k, p) hm
    obtain ⟨prm, hprm, hP⟩ := holdsAt_elim hh
    simp only [Bool.decide_and, Bool.and_eq_true, decide_eq_true_eq, ne_eq, decide_not,
      Bool.not_eq_true', decide_eq_false_iff_not] at hP
    exact ⟨prm, hprm, hP.1, hd, hP.2⟩
  refine ⟨h1, ?_, ?_, ?_⟩
  · intro k p hm
    obtain ⟨prm, hprm, hP⟩ := holdsAt_elim (hwf.2.2.2 (k, p) hm)
    exact ⟨prm, hprm, by simpa using hP⟩
  · intro p hm
    obtain ⟨prm, hprm, hP⟩ := holdsAt_elim (hwf.1 p hm)
    simp only [Bool.decide_and, Bool.and_eq_true, decide_eq_true_eq] at hP
    exact ⟨prm, hprm, hP.1, hP.2⟩
  · intro key p hg
    obtain ⟨prm, hprm, _, _, hty⟩ := h1 key p (mapGet_mem key p _ hg)
    refine ⟨?_, prm, hprm, hty⟩
    intro hm
    obtain ⟨k, hk⟩ := List.getElem?_of_mem hm
    exact WF_positional_not_indexed c hwf k p key hk hg

/-- C16, witness: the registry with the flag `debug` after `addFlag`, `parse`
of `["prog", "-d"]` and the failed query `is("nope")`. -/
theorem C16_index_invariant_witness :
    (∀ k p, (k, p) ∈ ({ debugSeen with error_occured := true } : CLI).params_by_pattern →
      ∃ prm, ({ debugSeen with error_occured := true } : CLI).heap[p]? = some prm ∧
        prm.pattern = k ∧ k.head? ≠ some '-' ∧ prm.type ≠ POSITIONAL) ∧
    (∀ k p, (k, p) ∈ ({ debugSeen with error_occured := true } : CLI).params_by_name →
      ∃ prm, ({ debugSeen with error_occured := true } : CLI).heap[p]? = some prm ∧
        prm.name = k) ∧
    (∀ p ∈ ({ debugSeen with error_occured := true } : CLI).positionals,
      ∃ prm, ({ debugSeen with error_occured := true } : CLI).heap[p]? = some prm ∧
        prm.type = POSITIONAL ∧ prm.pattern = []) ∧
    (∀ key p,
      mapGet key ({ debugSeen with error_occured := true } : CLI).params_by_pattern = some p →
      p ∉ ({ debugSeen with error_occured := true } : CLI).positionals ∧
        ∃ prm, ({ debugSeen with error_occured := true } : CLI).heap[p]? = some prm ∧
          prm.type ≠ POSITIONAL) :=
  C16_index_invariant { debugSeen with error_occured := true }
    (Reachable.is debugSeen _ "nope".toList false
      (Reachable.parse (fresh.addFlag "debug".toList "d".toList []) debugSeen
        ["prog".toList, "-d".toList]
        (Reachable.addFlag fresh "debug".toList "d".toList [] Reachable.fresh) (by decide))
      (by decide))

end scli

namespace scli

open CLI param_type_e

/-! ## Inline values and following tokens -/

/-- C11, counterexample: with the option `verbosity` (pattern `verbose`) and
the flag `debug` (pattern `d`) declared, the token `--verbose=`, which is
dashes, the pattern, `=` and the empty value, is reached in flag position in
`["prog", "--verbose=", "-d"]`; the next loop head is index 3, not 2: `parse`
stores `-d`, not the empty string, as the option's value, and the flag
`debug` is not marked found. Also, the option `o` declared with the pattern
`a=b` does not get the value `v` from the token `--a=b=v`. -/
theorem C11_counterexample :
    "--verbose=".toList = "--".toList ++ "verbose".toList ++ '=' :: [] ∧
    loopHead ["prog".toList, "--verbose=".toList, "-d".toList] 0 1
      { (fresh.addLongOption "verbosity".toList "verbose".toList []).addFlag
          "debug".toList "d".toList [] with was_parsed := true }
      = some (1, { (fresh.addLongOption "verbosity".toList "verbose".toList []).addFlag
          "debug".toList "d".toList [] with was_parsed := true }) ∧
    ((loopHead ["prog".toList, "--verbose=".toList, "-d".toList] 1 1
      { (fresh.addLongOption "verbosity".toList "verbose".toList []).addFlag
          "debug".toList "d".toList [] with was_parsed := true }).map fun r => r.1) = some 3 ∧
    ((parse ((fresh.addLongOption "verbosity".toList "verbose".toList []).addFlag
          "debug".toList "d".toList []) ["prog".toList, "--verbose=".toList, "-d".toList]).map
        fun c' => c'.heap.map fun prm => (prm.name, prm.found, prm.value))
      = some [("verbosity".toList, true, "-d".toList), ("debug".toList, false, [])] ∧
    ((parse (fresh.addOption "o".toList "a=b".toList []) ["prog".toList, "--a=b=v".toList]).map
        fun c' => (c'.error_occured, c'.heap.map fun prm => (prm.pattern, prm.found, prm.value)))
      = some (true, [("a=b".toList, false, [])]) := by
  decide

/-- C11 (amended): in a well-formed registry let an `OPTION` or `LONG_OPTION`
be filed in the pattern index under a pattern `p` without `=`, and let a token
made of dashes, `p`, `=` and a non-empty `v` be reached at a loop head in
flag position, at index `j`, the option's record being `prm` then. The loop
body stores `v` as the option's value, marks it found, changes nothing else,
and the next loop head is at index `j + 1`, in flag position: the following
token is not consumed as the value. -/
theorem C11_inline_value_first (c : CLI) (argv : List Str) (k j : Nat) (cj : CLI)
    (d p v : Str) (ptr : Ptr) (prm : param_t) (hwf : WF c)
    (hget : mapGet p c.params_by_pattern = some ptr) (hprm : cj.heap[ptr]? = some prm)
    (hty : prm.type = OPTION ∨ prm.type = LONG_OPTION)
    (hd : ∀ ch ∈ d, ch = '-') (hp : '=' ∉ p) (hv : v ≠ [])
    (hreach : loopHead argv k 1 { c with was_parsed := true } = some (j, cj))
    (hflag : c.positionals.length ≤ j - 1)
    (htok : argv[j]? = some (d ++ p ++ '=' :: v)) :
    ∃ c1, loopHead argv (k + 1) 1 { c with was_parsed := true } = some (j + 1, c1) ∧
      c1 = { cj with heap := cj.heap.set ptr { prm with found := true, value := v } } ∧
      c1.heap[ptr]? = some { prm with found := true, value := v } ∧
      c1.positionals.length ≤ (j + 1) - 1 := by
  have hfr := (loopHead_frame argv k 1 j _ cj hreach).1
  have hj : j < argv.length := (List.getElem?_eq_some.mp htok).1
  have hpl : ptr < cj.heap.length := (List.getElem?_eq_some.mp hprm).1
  have hhead : p.head? ≠ some '-' := (hwf.2.2.1 (p, ptr) (mapGet_mem p ptr _ hget)).2
  have hdp : '=' ∉ d ++ p := by
    intro hmem
    rcases List.mem_append.mp hmem with h | h
    · exact absurd (hd _ h) (by decide)
    · exact hp h
  have hsplit : SplitAtEqual (d ++ p ++ '=' :: v) (d ++ p ++ '=' :: v) = (d ++ p, v) :=
    SplitAtEqual_append (d ++ p) v _ hdp
  have hpos : cj.positionals.length ≤ j - 1 := by
    rw [hfr.positionals]
    exact hflag
  have hget' : mapGet (StripPattern (SplitAtEqual (d ++ p ++ '=' :: v) (d ++ p ++ '=' :: v)).1)
      cj.params_by_pattern = some ptr := by
    rw [hfr.params_by_pattern, hsplit, StripPattern_dashes d p hd, StripPattern_of_head p hhead]
    exact hget
  have hb := parseBody_matched argv j cj _ ptr prm hpos htok hget' hprm
  have hvl : v.length > 0 := List.length_pos.mpr hv
  rw [hsplit] at hb
  simp only [hty, if_true, hvl] at hb
  refine ⟨_, loopHead_succ argv k 1 j j _ cj _ hreach hj hb, rfl, ?_, ?_⟩
  · simp [List.getElem?_set, hpl]
  · show cj.positionals.length ≤ j + 1 - 1
    omega

/-- C11 (amended), witness: `--verbose=3` followed by `-d`. -/
theorem C11_inline_value_first_witness :
    ∃ c1, loopHead ["prog".toList, "--verbose=3".toList, "-d".toList] (0 + 1) 1
        { (fresh.addLongOption "verbosity".toList "verbose".toList []).addFlag
            "debug".toList "d".toList [] with was_parsed := true } = some (1 + 1, c1) ∧
      c1 = { ({ (fresh.addLongOption "verbosity".toList "verbose".toList []).addFlag
                "debug".toList "d".toList [] with was_parsed := true } : CLI) with
              heap := ({ (fresh.addLongOption "verbosity".toList "verbose".toList []).addFlag
                "debug".toList "d".toList [] with was_parsed := true } : CLI).heap.set 0
                { MakeParam LONG_OPTION "verbosity".toList "verbose".toList [] with
                  found := true, value := "3".toList } } ∧
      c1.heap[0]? = some { MakeParam LONG_OPTION "verbosity".toList "verbose".toList [] with
                  found := true, value := "3".toList } ∧
      c1.positionals.length ≤ (1 + 1) - 1 :=
  C11_inline_value_first
    ((fresh.addLongOption "verbosity".toList "verbose".toList []).addFlag
      "debug".toList "d".toList [])
    ["prog".toList, "--verbose=3".toList, "-d".toList] 0 1
    { (fresh.addLongOption "verbosity".toList "verbose".toList []).addFlag
        "debug".toList "d".toList [] with was_parsed := true }
    "--".toList "verbose".toList "3".toList 0
    (MakeParam LONG_OPTION "verbosity".toList "verbose".toList [])
    (by decide) (by decide) (by decide) (by decide) (by decide) (by decide) (by decide)
    (by decide) (by decide) (by decide)

end scli

namespace scli

open CLI param_type_e

/-- C19: let a token reached at a loop head in flag position, at index `j`,
match an `OPTION` or `LONG_OPTION` (record `prm` then), have an empty inline
value and be followed by a token `t`. The loop body stores `t`, as it is,
as the option's value and marks the option found; the next loop head is at
index `j + 2`, so `t` is never looked up; the error flag and every other
object are as they were before the option's token. -/
theorem C19_option_takes_next_token (c : CLI) (argv : List Str) (k j : Nat) (cj : CLI)
    (tok t : Str) (ptr : Ptr) (prm : param_t)
    (hreach : loopHead argv k 1 { c with was_parsed := true } = some (j, cj))
    (hflag : c.positionals.length ≤ j - 1) (htok : argv[j]? = some tok)
    (hget : mapGet (StripPattern (SplitAtEqual tok tok).1) c.params_by_pattern = some ptr)
    (hprm : cj.heap[ptr]? = some prm) (hty : prm.type = OPTION ∨ prm.type = LONG_OPTION)
    (hinline : (SplitAtEqual tok tok).2 = []) (hnext : argv[j + 1]? = some t) :
    ∃ c1, loopHead argv (k + 1) 1 { c with was_parsed := true } = some (j + 2, c1) ∧
      c1 = { cj with heap := cj.heap.set ptr { prm with found := true, value := t } } ∧
      c1.heap[ptr]? = some { prm with found := true, value := t } ∧
      (∀ q, q ≠ ptr → c1.heap[q]? = cj.heap[q]?) ∧
      c1.error_occured = cj.error_occured := by
  have hfr := (loopHead_frame argv k 1 j _ cj hreach).1
  have hj : j < argv.length := (List.getElem?_eq_some.mp htok).1
  have hj1 : j + 1 < argv.length := (List.getElem?_eq_some.mp hnext).1
  have hpl : ptr < cj.heap.length := (List.getElem?_eq_some.mp hprm).1
  have hpos : cj.positionals.length ≤ j - 1 := by
    rw [hfr.positionals]
    exact hflag
  have hget' : mapGet (StripPattern (SplitAtEqual tok tok).1) cj.params_by_pattern
      = some ptr := by
    rw [hfr.params_by_pattern]
    exact hget
  have hb := parseBody_matched argv j cj tok ptr prm hpos htok hget' hprm
  have hlt : j < argv.length - 1 := by omega
  simp only [hty, if_true, hinline, List.length_nil, gt_iff_lt, lt_self_iff_false, if_false,
    hlt, hnext, Option.map_some'] at hb
  refine ⟨_, loopHead_succ argv k 1 j (j + 1) _ cj _ hreach hj hb, rfl, ?_, ?_, rfl⟩
  · simp [List.getElem?_set, hpl]
  · intro q hq
    simp [List.getElem?_set, Ne.symm hq]

/-- C19, witness: `--verbose` followed by `-d`; the flag's token becomes the
option's value and the flag is left alone. -/
theorem C19_option_takes_next_token_witness :
    ∃ c1, loopHead ["prog".toList, "--verbose".toList, "-d".toList] (0 + 1) 1
        { optionAndFlag with was_parsed := true } = some (1 + 2, c1) ∧
      c1 = { ({ optionAndFlag with was_parsed := true } : CLI) with
              heap := ({ optionAndFlag with was_parsed := true } : CLI).heap.set 0
                { MakeParam LONG_OPTION "verbosity".toList "verbose".toList [] with
                  found := true, value := "-d".toList } } ∧
      c1.heap[0]? = some { MakeParam LONG_OPTION "verbosity".toList "verbose".toList [] with
                  found := true, value := "-d".toList } ∧
      (∀ q, q ≠ 0 → c1.heap[q]? = ({ optionAndFlag with was_parsed := true } : CLI).heap[q]?) ∧
      c1.error_occured = ({ optionAndFlag with was_parsed := true } : CLI).error_occured :=
  C19_option_takes_next_token optionAndFlag
    ["prog".toList, "--verbose".toList, "-d".toList] 0 1
    { optionAndFlag with was_parsed := true } "--verbose".toList "-d".toList 0
    (MakeParam LONG_OPTION "verbosity".toList "verbose".toList [])
    (by decide) (by decide) (by decide) (by decide) (by decide) (by decide) (by decide)
    (by decide)

end scli

namespace scli

open CLI param_type_e

/-! ## The three error conditions of `parse` -/

/-- C18: in a well-formed registry with a clear error flag, let every token
the loop of `parse` reaches at a loop head in flag position have its part
before the first `=`, stripped of leading dashes, in the pattern index, and
let the object found there, if it is an `OPTION` or `LONG_OPTION` and the
inline value is empty, have a token after it, and if it is a `FLAG` or
`LONG_FLAG`, come with an empty inline value. Then `parse` returns with the
error flag still clear. -/
theorem C18_no_other_error (c : CLI) (argv : List Str) (hwf : WF c)
    (herr : c.error_occured = false)
    (hok : ∀ (k j : Nat) (cj : CLI) (tok : Str),
      loopHead argv k 1 { c with was_parsed := true } = some (j, cj) →
      c.positionals.length ≤ j - 1 → argv[j]? = some tok →
      ∃ p prm, mapGet (StripPattern (SplitAtEqual tok tok).1) c.params_by_pattern = some p ∧
        c.heap[p]? = some prm ∧
        (prm.type = OPTION ∨ prm.type = LONG_OPTION → (SplitAtEqual tok tok).2 = [] →
          j + 1 < argv.length) ∧
        (prm.type = FLAG ∨ prm.type = LONG_FLAG → (SplitAtEqual tok tok).2 = [])) :
    ∃ c', parse c argv = some c' ∧ c'.error_occured = false := by
  obtain ⟨c', hc'⟩ := parse_total c argv hwf.live
  have hwf0 : WF { c with was_parsed := true } := hwf
  exact ⟨c', hc', parseLoop_no_error argv { c with was_parsed := true } hwf0 hok
    argv.length 0 1 _ c' rfl herr hc'⟩

/-- C18, witness: the flag `debug` declared, and the token list `["prog", "-d"]`:
the only token reached in flag position is `-d`, at the first loop head. -/
theorem C18_no_other_error_witness :
    ∃ c', parse (fresh.addFlag "debug".toList "d".toList [])
        ["prog".toList, "-d".toList] = some c' ∧ c'.error_occured = false :=
  C18_no_other_error (fresh.addFlag "debug".toList "d".toList [])
    ["prog".toList, "-d".toList] (by decide) (by decide) (by
      intro k j cj tok h _ htok
      have e0 : loopHead ["prog".toList, "-d".toList] 0 1
          { fresh.addFlag "debug".toList "d".toList [] with was_parsed := true }
          = some (1, { fresh.addFlag "debug".toList "d".toList [] with was_parsed := true }) :=
        rfl
      have hb : parseBody ["prog".toList, "-d".toList] 1
          { fresh.addFlag "debug".toList "d".toList [] with was_parsed := true }
          = some (1, debugSeen) := by decide
      have e1 := loopHead_succ _ 0 1 1 1 _ _ _ e0 (by decide) hb
      cases k with
      | zero =>
        rw [e0] at h
        obtain ⟨rfl, rfl⟩ := Prod.mk.inj (Option.some.inj h)
        have ht : "-d".toList = tok := Option.some.inj htok
        subst ht
        exact ⟨0, MakeParam FLAG "debug".toList "d".toList [], by decide, by decide,
          by decide, by decide⟩
      | succ k =>
        have e2 := loopHead_after_exit _ (0 + 1) k 1 2 _ debugSeen e1 (by decide)
        have ek : 0 + 1 + k = k + 1 := by omega
        rw [ek] at e2
        rw [e2] at h
        obtain ⟨rfl, rfl⟩ := Prod.mk.inj (Option.some.inj h)
        simp at htok)

end scli

namespace scli

open CLI param_type_e

/-! ## Totality and bounds of `parse` -/

/-- C20: on a registry with live pointers and any token list, `parse`
returns, and it returns the same with any fuel of at least `argc - 1`
iterations, the index being advanced at least once per iteration. Every loop
head has an index of at least 1; at a head inside the list the body
completes, which it does only if each of its reads is in bounds: it reads
the token at the head, ends at the head's index or one further, still
inside the list, the token of the extra advance being there, and the
positional vector is indexed below its length. With at most the invocation
token in the list, `parse` only sets `was_parsed`. -/
theorem C20_parse_total_in_bounds (c : CLI) (argv : List Str) (hl : Live c) :
    (∃ c', parse c argv = some c') ∧
    (∀ fuel, argv.length - 1 ≤ fuel →
      parseLoop argv fuel 1 { c with was_parsed := true } = parse c argv) ∧
    (∀ (k j : Nat) (cj : CLI),
      loopHead argv k 1 { c with was_parsed := true } = some (j, cj) →
      1 ≤ j ∧
      (j < argv.length →
        ∃ i1 c1 tok, parseBody argv j cj = some (i1, c1) ∧ argv[j]? = some tok ∧
          j ≤ i1 ∧ i1 ≤ j + 1 ∧ i1 < argv.length ∧
          (i1 = j + 1 → ∃ t, argv[j + 1]? = some t) ∧
          (j - 1 < cj.positionals.length → ∃ p, cj.positionals[j - 1]? = some p))) ∧
    (argv.length ≤ 1 → parse c argv = some { c with was_parsed := true }) := by
  refine ⟨parse_total c argv hl, ?_, ?_, ?_⟩
  · intro fuel hf
    exact parseLoop_fuel argv fuel argv.length 1 _ hf (by omega)
  · intro k j cj h
    obtain ⟨hfr, h1⟩ := loopHead_frame argv k 1 j _ cj h
    refine ⟨h1, ?_⟩
    intro hj
    have hl0 : Live { c with was_parsed := true } := hl
    obtain ⟨⟨i1, c1⟩, hb⟩ := parseBody_progress argv j cj (hl0.live_of_frame hfr) hj
    obtain ⟨_, b1, b2, b3⟩ := parseBody_frame argv j i1 cj c1 hb
    refine ⟨i1, c1, argv[j], hb, List.getElem?_eq_getElem hj, b1, b2, b3, ?_, ?_⟩
    · intro e
      have hlt : j + 1 < argv.length := by omega
      exact ⟨argv[j + 1], List.getElem?_eq_getElem hlt⟩
    · intro hp
      exact ⟨cj.positionals[j - 1], List.getElem?_eq_getElem hp⟩
  · intro hlen
    exact parseLoop_exit argv argv.length 1 _ hlen

/-- C20, witness: an option that takes the following token as its value, the
last of the list. -/
theorem C20_parse_total_in_bounds_witness :
    ∃ c', parse optionAndFlag ["prog".toList, "--verbose".toList, "3".toList] = some c' :=
  (C20_parse_total_in_bounds optionAndFlag
    ["prog".toList, "--verbose".toList, "3".toList] (by decide)).1

end scli
